import Mathlib

/-!
Verification of the Spiral identifier-splitting library (the Ronin splitter).

This file shallowly embeds the core of the library:

* `heuristic_split` from `spiral/simple_splitters.py` (delimiter translation,
  protection of common terms with embedded numbers, camel-case splitting and
  digit-run splitting);
* the `Ronin` class from `spiral/ronin.py`: `init`, `split`,
  `_same_case_split`, `_adjusted_score`, `_rescale`, `_recognized`,
  `_special_case`, `_in_dictionary`, `_stem`, `_is_prefix`, `_is_suffix`
  and the score closure generated by `init`.

Modelling conventions:

* Python strings are `List Char` (`Str`); Python's ASCII-oriented
  `str.lower`, `str.isupper`, ... are Lean's `Char` functions.
* Python floats are modelled as `ℚ`; `math.pow` (used with fractional,
  optimisation-chosen exponents) is an abstract parameter `rpow` of the
  splitter state, since its exact values never matter to the control flow
  facts proved here.
* `constants.py` (the static sets `prefixes`, `suffixes`,
  `common_terms_with_numbers`, `special_computing_terms`,
  `common_suffix_numbers`) is not part of the sources; following the spec,
  these are fields of the splitter state, i.e. abstract finite string sets.
* The NLTK dictionary, the Snowball stemmer and the pickled artifacts are
  external inputs and are likewise fields / explicit parameters.
* Python's `bisect.insort` on `(float, list-of-str)` tuples is embedded
  with Python's lexicographic tuple/list/string ordering.
* The recursion of `_same_case_split` (on a strict suffix of the input) is
  realised with a structural fuel argument, with fuel `s.length + 1`;
  a congruence lemma shows any sufficient fuel gives the same result, so
  the embedded function is the (total) denotation of the Python recursion.
-/

attribute [local semireducible] Rat.mul Rat.inv Rat.add Rat.sub

abbrev Str := List Char

/-- Python `str.lower()` on an ASCII string. -/
def lowerStr (s : Str) : Str := s.map Char.toLower

/-- Python `str.capitalize()` on an ASCII string: first character
upper-cased, the rest lower-cased. -/
def capitalizePy : Str → Str
  | [] => []
  | c :: cs => Char.toUpper c :: cs.map Char.toLower

/-- The hard delimiter characters, from `_delimiter_chars = '$~_.:/@'` in
`simple_splitters.py`. -/
def isDelim (c : Char) : Bool :=
  c = '$' || c = '~' || c = '_' || c = '.' || c = ':' || c = '/' || c = '@'

/-- Source: `str.translate(identifier, _hard_splitter)` — every hard
delimiter becomes a space. -/
def translateDelims (s : Str) : Str :=
  s.map (fun c => if isDelim c then ' ' else c)

/-- One attempt of the alternation regex `(t1|t2|...)` with `re.I` at the
start of `s`: the first term (in list order) whose lower-cased text is a
prefix of the lower-cased input matches; the original slice of `s` is
returned together with the rest.  Empty terms are skipped (the real
constant sets have no empty member). -/
def firstMatch (terms : List Str) (s : Str) : Option (Str × Str) :=
  match terms with
  | [] => none
  | t :: ts =>
    if t ≠ [] ∧ t.length ≤ s.length ∧ lowerStr (s.take t.length) = lowerStr t
    then some (s.take t.length, s.drop t.length)
    else firstMatch ts s

/-- Fuel-indexed scanner for
`re.sub(exceptions_re, r' \1 ', preliminary)`: scan left to right; on a
match, emit the matched original text surrounded by spaces and continue
after it; otherwise copy one character.  Any fuel at least `s.length` is
sufficient (each step consumes at least one character). -/
def protectGo (terms : List Str) : ℕ → Str → Str
  | _, [] => []
  | 0, s => s
  | fuel + 1, c :: cs =>
    match firstMatch terms (c :: cs) with
    | some (m, rest) => ' ' :: (m ++ ' ' :: protectGo terms fuel rest)
    | none => c :: protectGo terms fuel cs

/-- Source: `re.sub(exceptions_re, r' \1 ', preliminary)`. -/
def protectExceptions (terms : List Str) (s : Str) : Str :=
  protectGo terms s.length s

/-- Source: `re.sub(_camel_case, r' \1', s)` with
`_camel_case = ((?<=[a-z])[A-Z])`: a space is inserted before every
uppercase letter whose predecessor in the original string is lowercase. -/
def camelSub : Str → Str
  | [] => []
  | [c] => [c]
  | a :: b :: rest =>
    if a.isLower && b.isUpper then a :: ' ' :: camelSub (b :: rest)
    else a :: camelSub (b :: rest)

/-- Python `str.split()` (split on whitespace runs, dropping empties),
with an accumulator for the current non-space run. -/
def splitWsGo (cur : Str) : Str → List Str
  | [] => if cur = [] then [] else [cur]
  | c :: cs =>
    if c.isWhitespace then
      (if cur = [] then splitWsGo [] cs else cur :: splitWsGo [] cs)
    else splitWsGo (cur ++ [c]) cs

/-- Python `str.split()`. -/
def splitWs (s : Str) : List Str := splitWsGo [] s

/-- Source: `filter(bool, re.split(r'(\d+)', s))` — the maximal runs of
digits and of non-digits of `s`, in order. -/
def digitRunsGo (cur : Str) : Str → List Str
  | [] => if cur = [] then [] else [cur]
  | c :: cs =>
    match cur with
    | [] => digitRunsGo [c] cs
    | d :: _ =>
      if d.isDigit = c.isDigit then digitRunsGo (cur ++ [c]) cs
      else cur :: digitRunsGo [c] cs

/-- Maximal same-class (digit / non-digit) runs of `s`. -/
def digitRuns (s : Str) : List Str := digitRunsGo [] s

/-- Source (keep_numbers=False branch):
`filter(bool, [t.lstrip(digits).rstrip(digits) for t in re.split(r'\d+', s)])`.
Splitting at digit runs and stripping digits from the ends of the
(digit-free) parts leaves exactly the maximal non-digit runs. -/
def nonDigitRuns (s : Str) : List Str :=
  (digitRuns s).filter fun p =>
    match p with
    | [] => false
    | c :: _ => !c.isDigit

/-- Python `s.endswith(tuple(suffixNums))`. -/
def endsWithAny (sufNums : List Str) (s : Str) : Bool :=
  sufNums.any fun t => t.isSuffixOf s

/-- Treatment of one whitespace-free piece in `heuristic_split` (source
lines 215-232): a piece that is an exception, or that ends with a common
numeric suffix and does not start with a digit, is kept whole; otherwise
it is split at digit runs.  With `keep_numbers=False`, digit runs are
dropped instead of kept (`s.strip()` is the identity on the pieces, which
contain no whitespace). -/
def heurPiece (terms sufNums : List Str) (keepNumbers : Bool) (s : Str) : List Str :=
  match s with
  | [] => []
  | c :: _ =>
    if lowerStr s ∈ terms ∨ (c.isDigit = false ∧ endsWithAny sufNums s = true) then [s]
    else if keepNumbers then digitRuns s
    else nonDigitRuns s

/-- Source: `heuristic_split(identifier, keep_numbers)` with the default
exception set (`spiral/simple_splitters.py`, lines 189-233), the
exception set and the common numeric suffixes passed explicitly. -/
def heuristic_split (terms sufNums : List Str) (identifier : Str)
    (keepNumbers : Bool) : List Str :=
  let preliminary := camelSub (protectExceptions terms (translateDelims identifier))
  ((splitWs preliminary).map (heurPiece terms sufNums keepNumbers)).flatten

-- Character-level facts used throughout (ASCII behaviour of the Python
-- string predicates).

theorem uint32_le_iff_toNat {a b : UInt32} : a ≤ b ↔ a.toNat ≤ b.toNat := by
  rw [UInt32.le_def, BitVec.le_def]
  exact Iff.rfl

theorem char_eq_iff_toNat {c d : Char} : c = d ↔ c.toNat = d.toNat := by
  constructor
  · intro h
    rw [h]
  · intro h
    exact Char.ext (UInt32.toNat.inj h)

theorem char_isLower_iff {c : Char} :
    c.isLower = true ↔ 97 ≤ c.toNat ∧ c.toNat ≤ 122 := by
  have h97 : (97 : UInt32).toNat = 97 := rfl
  have h122 : (122 : UInt32).toNat = 122 := rfl
  simp only [Char.isLower, Bool.and_eq_true, decide_eq_true_eq,
    uint32_le_iff_toNat, h97, h122]
  exact Iff.rfl

theorem char_isUpper_iff {c : Char} :
    c.isUpper = true ↔ 65 ≤ c.toNat ∧ c.toNat ≤ 90 := by
  have h65 : (65 : UInt32).toNat = 65 := rfl
  have h90 : (90 : UInt32).toNat = 90 := rfl
  simp only [Char.isUpper, Bool.and_eq_true, decide_eq_true_eq,
    uint32_le_iff_toNat, h65, h90]
  exact Iff.rfl

theorem char_isDigit_iff {c : Char} :
    c.isDigit = true ↔ 48 ≤ c.toNat ∧ c.toNat ≤ 57 := by
  have h48 : (48 : UInt32).toNat = 48 := rfl
  have h57 : (57 : UInt32).toNat = 57 := rfl
  simp only [Char.isDigit, Bool.and_eq_true, decide_eq_true_eq,
    uint32_le_iff_toNat, h48, h57]
  exact Iff.rfl

theorem char_isWhitespace_iff {c : Char} :
    c.isWhitespace = true ↔ c.toNat = 32 ∨ c.toNat = 9 ∨ c.toNat = 13 ∨ c.toNat = 10 := by
  have t1 : (' ' : Char).toNat = 32 := rfl
  have t2 : ('\t' : Char).toNat = 9 := rfl
  have t3 : ('\r' : Char).toNat = 13 := rfl
  have t4 : ('\n' : Char).toNat = 10 := rfl
  simp only [Char.isWhitespace, Bool.or_eq_true, decide_eq_true_eq, char_eq_iff_toNat,
    t1, t2, t3, t4]
  tauto

theorem char_isDelim_iff {c : Char} :
    isDelim c = true ↔ c.toNat = 36 ∨ c.toNat = 126 ∨ c.toNat = 95 ∨
      c.toNat = 46 ∨ c.toNat = 58 ∨ c.toNat = 47 ∨ c.toNat = 64 := by
  have t1 : ('$' : Char).toNat = 36 := rfl
  have t2 : ('~' : Char).toNat = 126 := rfl
  have t3 : ('_' : Char).toNat = 95 := rfl
  have t4 : ('.' : Char).toNat = 46 := rfl
  have t5 : (':' : Char).toNat = 58 := rfl
  have t6 : ('/' : Char).toNat = 47 := rfl
  have t7 : ('@' : Char).toNat = 64 := rfl
  simp only [isDelim, Bool.or_eq_true, decide_eq_true_eq, char_eq_iff_toNat,
    t1, t2, t3, t4, t5, t6, t7]
  tauto

theorem toLower_eq_of_isLower {c : Char} (h : c.isLower = true) : c.toLower = c := by
  have hb := char_isLower_iff.mp h
  rw [Char.toLower, if_neg]
  omega

theorem toLower_eq_of_isDigit {c : Char} (h : c.isDigit = true) : c.toLower = c := by
  have hb := char_isDigit_iff.mp h
  rw [Char.toLower, if_neg]
  omega

theorem toLower_eq_of_not_isUpper {c : Char} (h : c.isUpper = false) : c.toLower = c := by
  have hb : ¬(65 ≤ c.toNat ∧ c.toNat ≤ 90) := by
    intro hc
    rw [char_isUpper_iff.mpr hc] at h
    cases h
  rw [Char.toLower, if_neg hb]

theorem toNat_toLower_of_isUpper {c : Char} (h : c.isUpper = true) :
    (Char.toLower c).toNat = c.toNat + 32 := by
  have hb := char_isUpper_iff.mp h
  rw [Char.toLower, if_pos (by omega)]
  rw [Char.ofNat, dif_pos (Or.inl (by omega : c.toNat + 32 < 55296))]
  simp [Char.ofNatAux, Char.toNat, UInt32.toNat]

theorem toNat_toLower_bounds (c : Char) :
    (Char.toLower c).toNat = c.toNat ∨
      (97 ≤ (Char.toLower c).toNat ∧ (Char.toLower c).toNat ≤ 122) := by
  by_cases h : c.isUpper = true
  · right
    have hb := char_isUpper_iff.mp h
    rw [toNat_toLower_of_isUpper h]
    omega
  · left
    rw [toLower_eq_of_not_isUpper (by simpa using h)]

-- The Ronin splitter state (`class Ronin` in `spiral/ronin.py`).  The
-- constant sets come from the absent `constants.py` and are modelled from
-- the spec as abstract string sets; `dictionary` and `stemmer` model the
-- NLTK artifacts loaded in `init`; `rpow` models `math.pow`.

structure Ronin where
  common_terms_with_numbers : List Str
  special_computing_terms : List Str
  prefixes : List Str
  suffixes : List Str
  common_suffix_numbers : List Str
  dictionary : List Str
  stemmer : Str → Str
  rpow : ℚ → ℚ → ℚ
  frequencies : Option (List (Str × ℚ))
  highest_freq : ℚ
  length_cutoff : ℕ
  short_min_freq : ℚ
  low_freq_cutoff : ℚ
  normal_exponent : ℚ
  dict_word_exponent : ℚ
  camel_bias : ℚ
  recognition_bias : ℚ
  biased_threshold : ℚ
  alt_exponent : ℚ
  exact_case : Bool

/-- Python dict lookup on an association list (first matching key). -/
def lookupA : List (Str × ℚ) → Str → Option ℚ
  | [], _ => none
  | (k, v) :: rest, key => if k = key then some v else lookupA rest key

/-- The frequency table of an (initialized) splitter. -/
def Ronin.freqTable (r : Ronin) : List (Str × ℚ) := r.frequencies.getD []

/-- The score closure generated by `init` (`ronin.py` lines 415-436):
common terms with numbers are pinned to the highest frequency; with
`exact_case` the table is probed with the exact token, then the
capitalized token, then the lower-cased token; otherwise only with the
lower-cased token. -/
def Ronin.score (r : Ronin) (token : Str) : ℚ :=
  let lc := lowerStr token
  if lc ∈ r.common_terms_with_numbers then r.highest_freq
  else if r.exact_case then
    match lookupA r.freqTable token with
    | some v => v
    | none =>
      match lookupA r.freqTable (capitalizePy token) with
      | some v => v
      | none => (lookupA r.freqTable lc).getD 0
  else (lookupA r.freqTable lc).getD 0

/-- Source: `Ronin._stem` — a trailing `'s'` of a multi-character token is
stripped; otherwise the Snowball stemmer is consulted. -/
def Ronin.stem (r : Ronin) (token : Str) : Str :=
  if token.length > 1 ∧ token.getLast? = some 's' then token.dropLast
  else r.stemmer token

/-- Source: `Ronin._special_case`. -/
def Ronin.special_case (r : Ronin) (token : Str) : Bool :=
  decide (token ∈ r.common_terms_with_numbers ∨ token ∈ r.special_computing_terms ∨
    r.stem token ∈ r.special_computing_terms)

/-- Source: `Ronin._in_dictionary` — single letters never count. -/
def Ronin.in_dictionary (r : Ronin) (word : Str) : Bool :=
  if word.length ≤ 1 then false
  else decide (word ∈ r.dictionary ∨ r.stem word ∈ r.dictionary)

/-- Source: `Ronin._recognized`. -/
def Ronin.recognized (r : Ronin) (token : Str) : Bool :=
  r.special_case (lowerStr token) || r.in_dictionary (lowerStr token)

/-- Source: `Ronin._is_prefix`. -/
def Ronin.in_prefixes (r : Ronin) (s : Str) : Bool :=
  decide (lowerStr s ∈ r.prefixes)

/-- Source: `Ronin._is_suffix`. -/
def Ronin.in_suffixes (r : Ronin) (s : Str) : Bool :=
  decide (lowerStr s ∈ r.suffixes)

/-- Source: `Ronin._rescale`. -/
def Ronin.rescale (r : Ronin) (token : Str) (v : ℚ) : ℚ :=
  if r.recognized token then r.rpow v r.dict_word_exponent
  else r.rpow v r.normal_exponent

/-- Source: `Ronin._adjusted_score` (`ronin.py` lines 632-643). -/
def Ronin.adjusted_score (r : Ronin) (token : Str) : ℚ :=
  if token.length = 0 then 0
  else
    let v := r.score token
    if token.length ≤ r.length_cutoff ∧ r.special_case token = false ∧ v ≤ r.short_min_freq
    then 0
    else if v ≤ r.low_freq_cutoff then 0
    else r.rescale token v

-- Python's ordering on the `(score, split)` tuples kept in the sorted
-- `splits` list of `_same_case_split` (floats, then lists of strings
-- lexicographically, strings by code point).

/-- Python `<` on strings (code-point lexicographic). -/
def pyStrLt : Str → Str → Bool
  | [], [] => false
  | [], _ :: _ => true
  | _ :: _, [] => false
  | a :: as, b :: bs =>
    if a.toNat < b.toNat then true
    else if b.toNat < a.toNat then false
    else pyStrLt as bs

/-- Python `<` on lists of strings. -/
def pySplitLt : List Str → List Str → Bool
  | [], [] => false
  | [], _ :: _ => true
  | _ :: _, [] => false
  | a :: as, b :: bs =>
    if pyStrLt a b then true
    else if pyStrLt b a then false
    else pySplitLt as bs

/-- Python `<` on the `(score, split)` tuples. -/
def pyEntryLt (a b : ℚ × List Str) : Bool :=
  if a.1 < b.1 then true
  else if b.1 < a.1 then false
  else pySplitLt a.2 b.2

/-- Python `bisect.insort` (= `insort_right`): insert before the first
strictly greater element, i.e. after all existing equal elements. -/
def insortPy (x : ℚ × List Str) : List (ℚ × List Str) → List (ℚ × List Str)
  | [] => [x]
  | y :: ys => if pyEntryLt x y then x :: y :: ys else y :: insortPy x ys

/-- Loop state of `_same_case_split`: `max_score`, `new_split` (the
percolating primary candidate) and the sorted `splits` list. -/
structure ScsSt where
  maxScore : ℚ
  primary : Option (List Str)
  splits : List (ℚ × List Str)

/-- The body of the `while i < max_index` loop of `_same_case_split`
(`ronin.py` lines 550-608) at split index `i` (`left = s[0:i]`,
`right = s[i:]`): prefix/suffix-vetoed indices leave the state unchanged;
otherwise the four cases of the source update `max_score`, the primary
`new_split` and the sorted `splits` list.  The recursive call of case 3
is taken from the callback `f`. -/
def scsStep (r : Ronin) (f : Str → ℚ → ℚ × List Str) (s : Str) (ns threshold : ℚ)
    (i : ℕ) (st : ScsSt) : ScsSt :=
  let left := s.take i
  let right := s.drop i
  if r.in_prefixes left = true ∨ (5 < s.length ∧ r.in_suffixes right = true) then st
  else
    let scoreL := r.adjusted_score left
    let scoreR := r.adjusted_score right
    let either := max scoreL scoreR
    if threshold < scoreL ∧ threshold < scoreR then
      if st.maxScore < scoreL + scoreR then
        { maxScore := scoreL + scoreR,
          primary := some [left, right],
          splits := insortPy (scoreL + scoreR, [left, right]) st.splits }
      else st
    else if threshold < scoreL then
      if r.biased_threshold < either ∧ r.recognized right = true then
        { st with splits := insortPy (either, [left, right]) st.splits }
      else
        let res := f right ns
        if res.2.headD [] ≠ right then
          let wholeSplit := left :: res.2
          { st with
            primary := some wholeSplit,
            splits := insortPy (res.1 / (wholeSplit.length : ℚ), wholeSplit) st.splits }
        else if r.special_case right = true then
          { st with
            maxScore := either,
            splits := insortPy (either, [left, right]) st.splits }
        else st
    else if threshold < scoreR ∧ (r.recognized left = true ∨
        left.length ≤ r.length_cutoff ∨ r.special_case right = true) then
      if r.biased_threshold < either then
        { st with splits := insortPy (scoreR / (left.length : ℚ), [left, right]) st.splits }
      else if r.recognized right = true then
        { st with splits := insortPy (scoreR, [left, right]) st.splits }
      else st
    else st

/-- The `while i < max_index` loop of `_same_case_split`, processing
indices `j+1, j+2, ...` while they are `< s.length` (the source's `i`
runs over `1 .. len(s)-1`); `k` is the remaining iteration count (any
`k ≥ s.length - j` behaves as the unbounded loop). -/
def scsLoopGo (r : Ronin) (f : Str → ℚ → ℚ × List Str) (s : Str) (ns threshold : ℚ) :
    ℕ → ℕ → ScsSt → ScsSt
  | 0, _, st => st
  | k + 1, j, st =>
    if j + 1 < s.length then
      scsLoopGo r f s ns threshold k (j + 1) (scsStep r f s ns threshold (j + 1) st)
    else st

/-- The selection made after the scan (`ronin.py` lines 610-623): if any
candidate was recorded, take the last (highest) entry of the sorted list,
scale its score by `len(split) ** alt_exponent` and compare with
`score_ns`; otherwise return `(max_score, [s])`. -/
def scsSelect (r : Ronin) (s : Str) (ns : ℚ) (st : ScsSt) : ℚ × List Str :=
  match st.splits.getLast? with
  | some (altScore, altSplit) =>
    if ns ≤ altScore / r.rpow (altSplit.length : ℚ) r.alt_exponent
    then (altScore, altSplit)
    else (ns, [s])
  | none => (st.maxScore, [s])

/-- Fuel-indexed embedding of `Ronin._same_case_split` (`ronin.py` lines
537-623).  Any fuel greater than `s.length` yields the same value
(`scsFuel_congr` below), so `Ronin.same_case_split` is the total
denotation of the Python recursion, which descends to strict suffixes. -/
def scsFuel (r : Ronin) : ℕ → Str → ℚ → ℚ × List Str
  | 0, s, ns => (ns, [s])
  | fuel + 1, s, ns =>
    if r.recognized s = true then (ns, [s])
    else
      let threshold := max (r.adjusted_score s) ns
      let st := scsLoopGo r (fun t m => scsFuel r fuel t m) s ns threshold s.length 0
        ⟨-1, none, []⟩
      scsSelect r s ns st

/-- Source: `Ronin._same_case_split(s, score_ns)` (the `level` parameter
only affects debug output). -/
def Ronin.same_case_split (r : Ronin) (s : Str) (ns : ℚ) : ℚ × List Str :=
  scsFuel r (s.length + 1) s ns

/-- Index of the first match of `re.search(r'[A-Z][a-z]', s)`: the least
`i` with `s[i]` uppercase and `s[i+1]` lowercase. -/
def findUL : Str → Option ℕ
  | [] => none
  | [_] => none
  | a :: b :: rest =>
    if a.isUpper && b.isLower then some 0
    else (findUL (b :: rest)).map (· + 1)

/-- The per-piece camel-case stage of `Ronin.split` (`ronin.py` lines
498-527): on the first upper-to-lower transition the piece is cut before
or after the uppercase letter according to a score comparison. -/
def Ronin.camelStage (r : Ronin) (s : Str) : List Str :=
  match findUL s with
  | none => [s]
  | some i =>
    let camel := if 0 < i then s.drop i else s
    let camelScore := r.score camel
    let altScore := r.adjusted_score (s.drop (i + 1)) * r.camel_bias
    if altScore ≤ camelScore then
      if 0 < i then [s.take i, s.drop i] else [s]
    else [s.take (i + 1), s.drop (i + 1)]

/-- Source: `Ronin.split(identifier, keep_numbers)` (`ronin.py` lines
453-534), for an initialized splitter: the heuristic split, then the
camel-transition pass (recognized tokens pass unchanged), then
`_same_case_split` on every token with its adjusted score as threshold. -/
def Ronin.split (r : Ronin) (identifier : Str) (keepNumbers : Bool) : List Str :=
  let initialList := heuristic_split r.common_terms_with_numbers
    r.common_suffix_numbers identifier keepNumbers
  let splits := (initialList.map fun s =>
    if r.recognized s = true then [s] else r.camelStage s).flatten
  (splits.map fun token =>
    (r.same_case_split token (r.adjusted_score token)).2).flatten

-- The init path (`Ronin.init`, `ronin.py` lines 264-450, and
-- `frequencies_from_pickle`, `frequencies.py` lines 35-61).

/-- The numeric / flag arguments of `Ronin.init`. -/
structure InitParams where
  exact_case : Bool
  low_freq_cutoff : ℚ
  length_cutoff : ℕ
  short_min_freq : ℚ
  normal_exponent : ℚ
  dict_word_exponent : ℚ
  camel_bias : ℚ
  recognition_bias : ℚ
  alt_exponent : ℚ

/-- Modelled from the spec and `frequencies.py`: `frequencies_from_pickle`
wraps the unpickling in a bare `try/except` returning an empty dict, so a
missing or corrupt artifact yields `\x7b\x7d` and never an exception.  The
I/O and unpickling themselves are external; `parse = none` stands for any
failure to read or parse the file. -/
def frequencies_from_pickle (parse : Option (List (Str × ℚ))) : List (Str × ℚ) :=
  parse.getD []

/-- Case collapsing of a supplied table when `exact_case` is false
(`ronin.py` lines 376-383): keys are lower-cased, keeping the maximum
value over case variants. -/
def upsertMax (m : List (Str × ℚ)) (k : Str) (v : ℚ) : List (Str × ℚ) :=
  if (lookupA m k).isSome then
    m.map fun p => if p.1 = k then (p.1, max v p.2) else p
  else m ++ [(k, v)]

/-- Lower-case collapse of a frequency table. -/
def collapseCase (tbl : List (Str × ℚ)) : List (Str × ℚ) :=
  tbl.foldl (fun m p => upsertMax m (lowerStr p.1) p.2) []

/-- Python `max(values)`: `none` when the collection is empty (in which
case Python raises `ValueError`). -/
def pyMaxQ : List ℚ → Option ℚ
  | [] => none
  | v :: vs => some (vs.foldl max v)

/-- Whether Python's `not self._frequencies` is true: no table stored yet,
or an empty one. -/
def Ronin.freqFalsy (r : Ronin) : Bool :=
  match r.frequencies with
  | none => true
  | some t => t.isEmpty

/-- Modelled from the spec and `ronin.py` lines 363-450: `Ronin.init`.
A table is loaded only when none is stored yet: the `frequencies`
argument if supplied (and non-empty), else the default artifact
(`artifact = none` models a missing file, raising `ValueError`;
`some parse` models a present file handed to `frequencies_from_pickle`).
With `exact_case` false the table is case-collapsed.  `max` over the
table values raises (`none`) when the table is empty.  All numeric
parameters and the `exact_case` flag are stored unconditionally, without
any range validation; the dictionary/stemmer artifacts are external and
are left as they are in the state. -/
def Ronin.init (r : Ronin) (freqArg : Option (List (Str × ℚ)))
    (artifact : Option (Option (List (Str × ℚ)))) (p : InitParams) :
    Option Ronin :=
  let stored? : Option (List (Str × ℚ)) :=
    if r.freqFalsy then
      match freqArg with
      | some tbl =>
        if tbl.isEmpty then
          match artifact with
          | none => none
          | some parse => some (frequencies_from_pickle parse)
        else some tbl
      | none =>
        match artifact with
        | none => none
        | some parse => some (frequencies_from_pickle parse)
    else r.frequencies
  match stored? with
  | none => none
  | some tbl0 =>
    let tbl := if r.freqFalsy then (if p.exact_case then tbl0 else collapseCase tbl0) else tbl0
    match pyMaxQ (tbl.map Prod.snd) with
    | none => none
    | some hf =>
      some { r with
             frequencies := some tbl,
             exact_case := p.exact_case,
             highest_freq := hf,
             recognition_bias := p.recognition_bias,
             biased_threshold := p.recognition_bias * hf,
             low_freq_cutoff := p.low_freq_cutoff,
             length_cutoff := p.length_cutoff,
             short_min_freq := p.short_min_freq,
             normal_exponent := p.normal_exponent,
             dict_word_exponent := p.dict_word_exponent,
             camel_bias := p.camel_bias,
             alt_exponent := p.alt_exponent }

-- Elementary facts about the tokenizer building blocks.

theorem splitWsGo_flatten : ∀ (s : Str) (cur : Str),
    (splitWsGo cur s).flatten = cur ++ s.filter (fun c => !c.isWhitespace)
  | [], cur => by
    by_cases h : cur = [] <;> simp [splitWsGo, h]
  | c :: cs, cur => by
    rw [splitWsGo]
    cases hw : c.isWhitespace
    · simp only [Bool.false_eq_true, if_false, List.filter_cons, hw]
      rw [splitWsGo_flatten cs (cur ++ [c])]
      simp
    · by_cases hc : cur = [] <;>
        simp [hw, hc, splitWsGo_flatten cs, List.filter_cons]

theorem splitWsGo_ne_nil : ∀ (s : Str) (cur : Str), ∀ t ∈ splitWsGo cur s, t ≠ []
  | [], cur => by
    by_cases h : cur = [] <;> simp [splitWsGo, h]
  | c :: cs, cur => by
    rw [splitWsGo]
    cases hw : c.isWhitespace
    · simpa [hw] using splitWsGo_ne_nil cs (cur ++ [c])
    · by_cases hc : cur = []
      · simpa [hw, hc] using splitWsGo_ne_nil cs []
      · intro t ht
        simp only [hw, if_true, hc, if_false, List.mem_cons] at ht
        rcases ht with rfl | ht
        · exact hc
        · exact splitWsGo_ne_nil cs [] t ht

theorem splitWsGo_append_space : ∀ (a : Str) (cur b : Str),
    splitWsGo cur (a ++ ' ' :: b) = splitWsGo cur a ++ splitWsGo [] b
  | [], cur, b => by
    have hw : (' ' : Char).isWhitespace = true := rfl
    by_cases hc : cur = [] <;> simp [splitWsGo, hw, hc]
  | c :: cs, cur, b => by
    rw [List.cons_append, splitWsGo, splitWsGo]
    cases hw : c.isWhitespace
    · simp [hw, splitWsGo_append_space cs]
    · by_cases hc : cur = [] <;>
        simp [hw, hc, splitWsGo_append_space cs]

theorem splitWs_append_space (a b : Str) :
    splitWs (a ++ ' ' :: b) = splitWs a ++ splitWs b :=
  splitWsGo_append_space a [] b

theorem splitWsGo_no_ws : ∀ (s : Str) (cur : Str),
    (∀ c ∈ s, c.isWhitespace = false) →
    splitWsGo cur s = if cur ++ s = [] then [] else [cur ++ s]
  | [], cur, _ => by
    by_cases h : cur = [] <;> simp [splitWsGo, h]
  | c :: cs, cur, h => by
    rw [splitWsGo]
    have hc : c.isWhitespace = false := h c (by simp)
    rw [if_neg (by simp [hc])]
    rw [splitWsGo_no_ws cs (cur ++ [c]) (fun d hd => h d (by simp [hd]))]
    simp

theorem splitWs_no_ws (s : Str) (hne : s ≠ [])
    (h : ∀ c ∈ s, c.isWhitespace = false) : splitWs s = [s] := by
  rw [splitWs, splitWsGo_no_ws s [] h]
  simp [hne]

theorem digitRunsGo_flatten : ∀ (s : Str) (cur : Str),
    (digitRunsGo cur s).flatten = cur ++ s
  | [], cur => by
    by_cases h : cur = [] <;> simp [digitRunsGo, h]
  | c :: cs, cur => by
    match cur with
    | [] =>
      rw [digitRunsGo]
      simpa using digitRunsGo_flatten cs [c]
    | d :: ds =>
      rw [digitRunsGo]
      by_cases h : d.isDigit = c.isDigit
      · simpa [h] using digitRunsGo_flatten cs ((d :: ds) ++ [c])
      · simpa [h] using digitRunsGo_flatten cs [c]

theorem digitRunsGo_ne_nil : ∀ (s : Str) (cur : Str), ∀ t ∈ digitRunsGo cur s, t ≠ []
  | [], cur => by
    by_cases h : cur = [] <;> simp [digitRunsGo, h]
  | c :: cs, cur => by
    match cur with
    | [] =>
      rw [digitRunsGo]
      simpa using digitRunsGo_ne_nil cs [c]
    | d :: ds =>
      rw [digitRunsGo]
      by_cases h : d.isDigit = c.isDigit
      · simpa [h] using digitRunsGo_ne_nil cs ((d :: ds) ++ [c])
      · intro t ht
        simp only [h, if_false, List.mem_cons] at ht
        rcases ht with rfl | ht
        · simp
        · exact digitRunsGo_ne_nil cs [c] t ht

theorem digitRunsGo_all_nondigit : ∀ (s : Str) (cur : Str), cur ≠ [] →
    (∀ c ∈ cur, c.isDigit = false) → (∀ c ∈ s, c.isDigit = false) →
    digitRunsGo cur s = [cur ++ s]
  | [], cur, hne, _, _ => by simp [digitRunsGo, hne]
  | c :: cs, cur, hne, hcur, hs => by
    match cur, hne with
    | d :: ds, _ =>
      rw [digitRunsGo]
      have hd : d.isDigit = false := hcur d (by simp)
      have hc : c.isDigit = false := hs c (by simp)
      rw [if_pos (by rw [hd, hc])]
      rw [digitRunsGo_all_nondigit cs ((d :: ds) ++ [c]) (by simp)
        (by
          intro x hx
          rcases List.mem_append.mp hx with hx | hx
          · exact hcur x hx
          · simp at hx
            rw [hx]
            exact hc)
        (fun x hx => hs x (by simp [hx]))]
      simp

theorem digitRuns_all_nondigit (s : Str) (hne : s ≠ [])
    (h : ∀ c ∈ s, c.isDigit = false) : digitRuns s = [s] := by
  match s, hne with
  | c :: cs, _ =>
    rw [digitRuns, digitRunsGo]
    exact digitRunsGo_all_nondigit cs [c] (by simp)
      (by
        intro x hx
        simp at hx
        rw [hx]
        exact h c (by simp))
      (fun x hx => h x (by simp [hx]))

theorem firstMatch_spec : ∀ (terms : List Str) (s m rest : Str),
    firstMatch terms s = some (m, rest) →
    ∃ t ∈ terms, t ≠ [] ∧ t.length ≤ s.length ∧ m = s.take t.length ∧
      rest = s.drop t.length ∧ lowerStr m = lowerStr t
  | [], s, m, rest => by simp [firstMatch]
  | t :: ts, s, m, rest => by
    rw [firstMatch]
    by_cases h : t ≠ [] ∧ t.length ≤ s.length ∧ lowerStr (s.take t.length) = lowerStr t
    · rw [if_pos h]
      intro he
      have he1 : m = s.take t.length := by
        have := congrArg (fun o => (Option.map Prod.fst o).getD []) he
        simpa using this.symm
      have he2 : rest = s.drop t.length := by
        have := congrArg (fun o => (Option.map Prod.snd o).getD []) he
        simpa using this.symm
      exact ⟨t, by simp, h.1, h.2.1, he1, he2, by rw [he1, h.2.2]⟩
    · rw [if_neg h]
      intro he
      obtain ⟨u, hu, hspec⟩ := firstMatch_spec ts s m rest he
      exact ⟨u, by simp [hu], hspec⟩

theorem firstMatch_append (terms : List Str) {s m rest : Str}
    (h : firstMatch terms s = some (m, rest)) : m ++ rest = s := by
  obtain ⟨t, _, _, _, hm, hr, _⟩ := firstMatch_spec terms s m rest h
  rw [hm, hr, List.take_append_drop]

theorem firstMatch_ne_nil (terms : List Str) {s m rest : Str}
    (h : firstMatch terms s = some (m, rest)) : m ≠ [] := by
  obtain ⟨t, _, htne, hlen, hm, _, _⟩ := firstMatch_spec terms s m rest h
  have h1 : 0 < t.length := List.length_pos.mpr htne
  intro hc
  rw [hc] at hm
  have h2 := congrArg List.length hm
  simp [List.length_take] at h2
  omega

theorem firstMatch_rest_lt (terms : List Str) {s m rest : Str}
    (h : firstMatch terms s = some (m, rest)) : rest.length < s.length := by
  have happ := firstMatch_append terms h
  have hne := firstMatch_ne_nil terms h
  have := congrArg List.length happ
  simp at this
  have : 0 < m.length := List.length_pos.mpr hne
  omega

theorem protectGo_congr (terms : List Str) : ∀ (n : ℕ) (s : Str) (fuel fuel' : ℕ),
    s.length ≤ n → s.length ≤ fuel → s.length ≤ fuel' →
    protectGo terms fuel s = protectGo terms fuel' s := by
  intro n
  induction n with
  | zero =>
    intro s fuel fuel' hn _ _
    have : s = [] := List.eq_nil_of_length_eq_zero (Nat.le_zero.mp hn)
    subst this
    cases fuel <;> cases fuel' <;> rfl
  | succ n ih =>
    intro s fuel fuel' hn hf hf'
    match s, fuel, fuel' with
    | [], f, f' => cases f <;> cases f' <;> rfl
    | c :: cs, f + 1, f' + 1 =>
      rw [protectGo, protectGo]
      match hm : firstMatch terms (c :: cs) with
      | some (m, rest) =>
        have hlt := firstMatch_rest_lt terms hm
        simp only []
        rw [ih rest f f' (by simp at hn hlt ⊢; omega) (by simp at hf hlt ⊢; omega)
          (by simp at hf' hlt ⊢; omega)]
      | none =>
        simp only []
        rw [ih cs f f' (by simp at hn ⊢; omega) (by simp at hf ⊢; omega)
          (by simp at hf' ⊢; omega)]

theorem protectExceptions_cons (terms : List Str) (c : Char) (cs : Str) :
    protectExceptions terms (c :: cs) =
      match firstMatch terms (c :: cs) with
      | some (m, rest) => ' ' :: (m ++ ' ' :: protectExceptions terms rest)
      | none => c :: protectExceptions terms cs := by
  rw [protectExceptions]
  have hl : (c :: cs).length = cs.length + 1 := rfl
  rw [hl, protectGo]
  match hm : firstMatch terms (c :: cs) with
  | some (m, rest) =>
    have hlt := firstMatch_rest_lt terms hm
    simp only []
    rw [protectExceptions,
      protectGo_congr terms rest.length rest cs.length rest.length (le_refl _)
        (by rw [hl] at hlt; omega) (le_refl _)]
  | none =>
    simp only []
    rw [protectExceptions]

theorem protectGo_filter (terms : List Str) : ∀ (n : ℕ) (s : Str) (fuel : ℕ),
    s.length ≤ n → s.length ≤ fuel →
    (protectGo terms fuel s).filter (fun c => !c.isWhitespace) =
      s.filter (fun c => !c.isWhitespace) := by
  intro n
  induction n with
  | zero =>
    intro s fuel hn _
    have : s = [] := List.eq_nil_of_length_eq_zero (Nat.le_zero.mp hn)
    subst this
    cases fuel <;> rfl
  | succ n ih =>
    intro s fuel hn hf
    match s, fuel with
    | [], f => cases f <;> rfl
    | c :: cs, f + 1 =>
      rw [protectGo]
      match hm : firstMatch terms (c :: cs) with
      | some (m, rest) =>
        have hlt := firstMatch_rest_lt terms hm
        have happ := firstMatch_append terms hm
        simp only []
        conv_rhs => rw [← happ, List.filter_append]
        rw [List.filter_cons, if_neg (by decide)]
        rw [List.filter_append, List.filter_cons, if_neg (by decide)]
        rw [ih rest f (by simp at hn hlt ⊢; omega) (by simp at hf hlt ⊢; omega)]
      | none =>
        simp only [List.filter_cons]
        rw [ih cs f (by simp at hn ⊢; omega) (by simp at hf ⊢; omega)]

theorem protectExceptions_filter (terms : List Str) (s : Str) :
    (protectExceptions terms s).filter (fun c => !c.isWhitespace) =
      s.filter (fun c => !c.isWhitespace) :=
  protectGo_filter terms s.length s s.length (le_refl _) (le_refl _)

theorem camelSub_cons2 (a b : Char) (rest : Str) :
    camelSub (a :: b :: rest) =
      if a.isLower && b.isUpper then a :: ' ' :: camelSub (b :: rest)
      else a :: camelSub (b :: rest) := by
  rw [camelSub]

theorem camelSub_filter : ∀ s : Str,
    (camelSub s).filter (fun c => !c.isWhitespace) = s.filter (fun c => !c.isWhitespace)
  | [] => rfl
  | [c] => rfl
  | a :: b :: rest => by
    rw [camelSub_cons2]
    have hsp : (!(' ' : Char).isWhitespace) = false := rfl
    by_cases h : (a.isLower && b.isUpper) = true
    · rw [if_pos h]
      simp only [List.filter_cons, hsp, Bool.false_eq_true, if_false,
        camelSub_filter (b :: rest)]
    · rw [if_neg h]
      simp only [List.filter_cons, camelSub_filter (b :: rest)]

theorem camelSub_no_upper : ∀ s : Str, (∀ c ∈ s, c.isUpper = false) → camelSub s = s
  | [], _ => rfl
  | [c], _ => rfl
  | a :: b :: rest, h => by
    rw [camelSub_cons2]
    have hb : b.isUpper = false := h b (by simp)
    rw [if_neg (by simp [hb])]
    rw [camelSub_no_upper (b :: rest) (fun c hc => h c (by simp at hc ⊢; tauto))]

theorem camelSub_append_space : ∀ (xs ys : Str),
    camelSub (xs ++ ' ' :: ys) = camelSub xs ++ ' ' :: camelSub ys
  | [], ys => by
    match ys with
    | [] => rfl
    | y :: ys' =>
      rw [List.nil_append, camelSub_cons2]
      rw [if_neg (by simp [show (' ' : Char).isLower = false from rfl])]
      rfl
  | [x], ys => by
    have h1 : ([x] ++ ' ' :: ys : Str) = x :: ' ' :: ys := rfl
    rw [h1, camelSub_cons2]
    rw [if_neg (by simp [show (' ' : Char).isUpper = false from rfl])]
    have h2 : (' ' :: ys : Str) = [] ++ ' ' :: ys := rfl
    rw [h2, camelSub_append_space [] ys]
    rfl
  | a :: b :: rest, ys => by
    have h1 : ((a :: b :: rest) ++ ' ' :: ys : Str) = a :: b :: (rest ++ ' ' :: ys) := rfl
    rw [h1, camelSub_cons2, camelSub_cons2]
    have h2 : (b :: (rest ++ ' ' :: ys) : Str) = (b :: rest) ++ ' ' :: ys := rfl
    by_cases h : (a.isLower && b.isUpper) = true
    · rw [if_pos h, if_pos h, h2, camelSub_append_space (b :: rest) ys]
      rfl
    · rw [if_neg h, if_neg h, h2, camelSub_append_space (b :: rest) ys]
      rfl

theorem translateDelims_filter (id : Str) (h : ∀ c ∈ id, c.isWhitespace = false) :
    (translateDelims id).filter (fun c => !c.isWhitespace) =
      id.filter (fun c => !(isDelim c)) := by
  induction id with
  | nil => rfl
  | cons c cs ih =>
    rw [translateDelims, List.map_cons, List.filter_cons, List.filter_cons]
    by_cases hd : isDelim c = true
    · rw [if_pos hd]
      rw [if_neg (by decide), if_neg (by simp [hd])]
      exact ih (fun d hd' => h d (by simp [hd']))
    · rw [if_neg hd]
      have hcw : c.isWhitespace = false := h c (by simp)
      rw [if_pos (by simp [hcw]), if_pos (by simp [Bool.not_eq_true] at hd; simp [hd])]
      rw [← translateDelims, ih (fun d hd' => h d (by simp [hd']))]

theorem translateDelims_no_delim (id : Str) (h : ∀ c ∈ id, isDelim c = false) :
    translateDelims id = id := by
  induction id with
  | nil => rfl
  | cons c cs ih =>
    rw [translateDelims, List.map_cons]
    rw [if_neg (by simp [h c (by simp)])]
    rw [← translateDelims, ih (fun d hd => h d (by simp [hd]))]

-- Facts about the sorted candidate list of `_same_case_split`.

theorem mem_insortPy {z x : ℚ × List Str} : ∀ {l : List (ℚ × List Str)},
    z ∈ insortPy x l → z = x ∨ z ∈ l
  | [] => by simp [insortPy]
  | y :: ys => by
    rw [insortPy]
    by_cases h : pyEntryLt x y = true
    · rw [if_pos h]
      intro hz
      simp at hz ⊢
      tauto
    · rw [if_neg h]
      intro hz
      rcases List.mem_cons.mp hz with rfl | hz
      · simp
      · rcases mem_insortPy hz with rfl | hz
        · simp
        · simp [hz]

theorem pyEntryLt_true_le {x y : ℚ × List Str} (h : pyEntryLt x y = true) :
    x.1 ≤ y.1 := by
  rw [pyEntryLt] at h
  by_cases h1 : x.1 < y.1
  · exact le_of_lt h1
  · rw [if_neg h1] at h
    by_cases h2 : y.1 < x.1
    · rw [if_pos h2] at h
      cases h
    · exact le_of_not_lt h2

theorem pyEntryLt_false_le {x y : ℚ × List Str} (h : pyEntryLt x y = false) :
    y.1 ≤ x.1 := by
  rw [pyEntryLt] at h
  by_cases h1 : x.1 < y.1
  · rw [if_pos h1] at h
    cases h
  · exact le_of_not_lt h1

theorem insortPy_pairwise {x : ℚ × List Str} : ∀ {l : List (ℚ × List Str)},
    l.Pairwise (fun a b => a.1 ≤ b.1) →
    (insortPy x l).Pairwise (fun a b => a.1 ≤ b.1)
  | [], _ => by simp [insortPy]
  | y :: ys, hp => by
    rw [insortPy]
    rcases List.pairwise_cons.mp hp with ⟨hy, hys⟩
    by_cases h : pyEntryLt x y = true
    · rw [if_pos h]
      refine List.pairwise_cons.mpr ⟨?_, hp⟩
      intro z hz
      rcases List.mem_cons.mp hz with rfl | hz
      · exact pyEntryLt_true_le h
      · exact le_trans (pyEntryLt_true_le h) (hy z hz)
    · rw [if_neg h]
      refine List.pairwise_cons.mpr ⟨?_, insortPy_pairwise hys⟩
      intro z hz
      rcases mem_insortPy hz with rfl | hz
      · exact pyEntryLt_false_le (Bool.not_eq_true _ ▸ h)
      · exact hy z hz

theorem getLast?_mem_list {α : Type} : ∀ {l : List α} {a : α}, l.getLast? = some a → a ∈ l
  | [], a => by simp
  | [x], a => by
    intro h
    simp [List.getLast?] at h
    simp [h]
  | x :: y :: ys, a => by
    intro h
    have h2 : (y :: ys : List α).getLast? = some a := by
      rw [List.getLast?_cons_cons] at h
      exact h
    exact List.mem_cons.mpr (Or.inr (getLast?_mem_list h2))

theorem pairwise_getLast_max : ∀ {l : List (ℚ × List Str)} {g : ℚ × List Str},
    l.Pairwise (fun a b => a.1 ≤ b.1) → l.getLast? = some g → ∀ p ∈ l, p.1 ≤ g.1
  | [], g => by simp
  | [x], g => by
    intro _ hg p hp'
    simp [List.getLast?] at hg
    simp at hp'
    rw [hp', hg]
  | x :: y :: ys, g => by
    intro hp hg p hp'
    rcases List.pairwise_cons.mp hp with ⟨hx, hxs⟩
    rw [List.getLast?_cons_cons] at hg
    rcases List.mem_cons.mp hp' with rfl | hp'
    · exact le_trans (hx y (by simp)) (pairwise_getLast_max hxs hg y (by simp))
    · exact pairwise_getLast_max hxs hg p hp'

-- The fuel of `scsFuel` is irrelevant as long as it exceeds the string
-- length: `Ronin.same_case_split` is the denotation of the recursion.

theorem scsStep_congr (r : Ronin) {f f' : Str → ℚ → ℚ × List Str} (s : Str)
    (ns th : ℚ) (i : ℕ) (st : ScsSt) (hi : 1 ≤ i)
    (hf : ∀ t m, t.length < s.length → f t m = f' t m) (hlen : i < s.length) :
    scsStep r f s ns th i st = scsStep r f' s ns th i st := by
  rw [scsStep, scsStep]
  have hdrop : (s.drop i).length < s.length := by
    rw [List.length_drop]
    omega
  rw [hf (s.drop i) ns hdrop]

theorem scsLoopGo_congr (r : Ronin) {f f' : Str → ℚ → ℚ × List Str} (s : Str)
    (ns th : ℚ) (hf : ∀ t m, t.length < s.length → f t m = f' t m) :
    ∀ (k j : ℕ) (st : ScsSt),
    scsLoopGo r f s ns th k j st = scsLoopGo r f' s ns th k j st
  | 0, j, st => rfl
  | k + 1, j, st => by
    rw [scsLoopGo, scsLoopGo]
    by_cases h : j + 1 < s.length
    · rw [if_pos h, if_pos h]
      rw [scsStep_congr r s ns th (j + 1) st (by omega) hf h]
      exact scsLoopGo_congr r s ns th hf k (j + 1) _
    · rw [if_neg h, if_neg h]

theorem scsFuel_congr (r : Ronin) : ∀ (n : ℕ) (s : Str), s.length ≤ n →
    ∀ (ns : ℚ) (fuel fuel' : ℕ), s.length < fuel → s.length < fuel' →
    scsFuel r fuel s ns = scsFuel r fuel' s ns := by
  intro n
  induction n with
  | zero =>
    intro s hn ns fuel fuel' hf hf'
    match fuel, fuel', hf, hf' with
    | f + 1, f' + 1, _, _ =>
      have hs : s = [] := List.eq_nil_of_length_eq_zero (Nat.le_zero.mp hn)
      subst hs
      rfl
  | succ n ih =>
    intro s hn ns fuel fuel' hf hf'
    match fuel, fuel', hf, hf' with
    | f + 1, f' + 1, _, _ =>
      rw [scsFuel, scsFuel]
      by_cases hrec : r.recognized s = true
      · rw [if_pos hrec, if_pos hrec]
      · rw [if_neg hrec, if_neg hrec]
        have hcb : ∀ t m, t.length < s.length →
            scsFuel r f t m = scsFuel r f' t m := by
          intro t m ht
          exact ih t (by omega) m f f' (by omega) (by omega)
        show scsSelect r s ns (scsLoopGo r (fun t m => scsFuel r f t m) s ns
            (max (r.adjusted_score s) ns) s.length 0 ⟨-1, none, []⟩) =
          scsSelect r s ns (scsLoopGo r (fun t m => scsFuel r f' t m) s ns
            (max (r.adjusted_score s) ns) s.length 0 ⟨-1, none, []⟩)
        exact congrArg (scsSelect r s ns)
          (scsLoopGo_congr r s ns (max (r.adjusted_score s) ns)
            (fun t m ht => hcb t m ht) s.length 0 _)

/-- Unfolding equation for `Ronin.same_case_split`: the embedded function
satisfies the recursion of `_same_case_split` literally (recursive calls
on the right part of a split point). -/
theorem same_case_split_eq (r : Ronin) (s : Str) (ns : ℚ) :
    r.same_case_split s ns =
      if r.recognized s = true then (ns, [s])
      else
        scsSelect r s ns
          (scsLoopGo r (fun t m => r.same_case_split t m) s ns
            (max (r.adjusted_score s) ns) s.length 0 ⟨-1, none, []⟩) := by
  rw [Ronin.same_case_split, scsFuel]
  by_cases hrec : r.recognized s = true
  · rw [if_pos hrec, if_pos hrec]
  · rw [if_neg hrec, if_neg hrec]
    have hcb : ∀ t m, t.length < s.length →
        scsFuel r s.length t m = r.same_case_split t m := by
      intro t m ht
      rw [Ronin.same_case_split]
      exact scsFuel_congr r s.length t (by omega) m s.length (t.length + 1)
        (by omega) (by omega)
    show scsSelect r s ns (scsLoopGo r (fun t m => scsFuel r s.length t m) s ns
        (max (r.adjusted_score s) ns) s.length 0 ⟨-1, none, []⟩) =
      scsSelect r s ns (scsLoopGo r (fun t m => r.same_case_split t m) s ns
        (max (r.adjusted_score s) ns) s.length 0 ⟨-1, none, []⟩)
    exact congrArg (scsSelect r s ns)
      (scsLoopGo_congr r s ns (max (r.adjusted_score s) ns)
        (fun t m ht => hcb t m ht) s.length 0 _)

/-- Structural invariant of every candidate recorded in the `splits` list
of `_same_case_split` on input `s`: the proposed split is a non-trivial
partition of `s` into non-empty tokens, and a two-token candidate is
never one that the prefix/suffix veto skipped. -/
def EntryOK (r : Ronin) (s : Str) (p : ℚ × List Str) : Prop :=
  p.2 ≠ [] ∧ p.2.flatten = s ∧ (∀ t ∈ p.2, t ≠ []) ∧
    ∀ a b, p.2 = [a, b] →
      ¬(r.in_prefixes a = true ∨ (5 < s.length ∧ r.in_suffixes b = true))

theorem scsStep_inv (r : Ronin) (f : Str → ℚ → ℚ × List Str) (s : Str) (ns th : ℚ)
    (i : ℕ) (st : ScsSt) (hi : 1 ≤ i) (hlen : i < s.length)
    (hf : (f (s.drop i) ns).2 ≠ [] ∧ (f (s.drop i) ns).2.flatten = s.drop i ∧
      ∀ u ∈ (f (s.drop i) ns).2, u ≠ [])
    (hst : ∀ p ∈ st.splits, EntryOK r s p) :
    ∀ p ∈ (scsStep r f s ns th i st).splits, EntryOK r s p := by
  rw [scsStep]
  have hLR : s.take i ++ s.drop i = s := List.take_append_drop i s
  have hLne : s.take i ≠ [] := by
    intro hc
    have := congrArg List.length hc
    simp only [List.length_take, List.length_nil] at this
    omega
  have hRne : s.drop i ≠ [] := by
    intro hc
    have := congrArg List.length hc
    simp only [List.length_drop, List.length_nil] at this
    omega
  by_cases hskip : r.in_prefixes (s.take i) = true ∨
      (5 < s.length ∧ r.in_suffixes (s.drop i) = true)
  · rw [if_pos hskip]
    exact hst
  · rw [if_neg hskip]
    have hOK2 : ∀ q : ℚ, EntryOK r s (q, [s.take i, s.drop i]) := by
      intro q
      refine ⟨by simp, by simp [hLR], ?_, ?_⟩
      · intro t ht
        rcases List.mem_cons.mp ht with rfl | ht
        · exact hLne
        · simp at ht
          rw [ht]
          exact hRne
      · intro a b hab
        have ha : a = s.take i := by
          have := congrArg (fun l => List.headD l ([] : Str)) hab
          simpa using this.symm
        have hb : b = s.drop i := by
          have := congrArg (fun l => List.headD l.tail ([] : Str)) hab
          simpa using this.symm
        rw [ha, hb]
        exact hskip
    have hOKw : (f (s.drop i) ns).2.headD [] ≠ s.drop i →
        ∀ q : ℚ, EntryOK r s (q, s.take i :: (f (s.drop i) ns).2) := by
      intro hhd q
      refine ⟨by simp, ?_, ?_, ?_⟩
      · simp [hf.2.1, hLR]
      · intro t ht
        rcases List.mem_cons.mp ht with rfl | ht
        · exact hLne
        · exact hf.2.2 t ht
      · intro a b hab
        have htl : (f (s.drop i) ns).2 = [b] := by
          have := congrArg List.tail hab
          simpa using this
        have : b = s.drop i := by
          have := hf.2.1
          rw [htl] at this
          simpa using this
        rw [htl, this] at hhd
        simp at hhd
    have hmem2 : ∀ (q : ℚ) (l : List (ℚ × List Str)),
        (∀ p ∈ l, EntryOK r s p) →
        ∀ p ∈ insortPy (q, [s.take i, s.drop i]) l, EntryOK r s p := by
      intro q l hl p hp
      rcases mem_insortPy hp with rfl | hp
      · exact hOK2 q
      · exact hl p hp
    by_cases h1 : th < r.adjusted_score (s.take i) ∧ th < r.adjusted_score (s.drop i)
    · rw [if_pos h1]
      by_cases h1a : st.maxScore < r.adjusted_score (s.take i) + r.adjusted_score (s.drop i)
      · rw [if_pos h1a]
        exact hmem2 _ st.splits hst
      · rw [if_neg h1a]
        exact hst
    · rw [if_neg h1]
      by_cases h2 : th < r.adjusted_score (s.take i)
      · rw [if_pos h2]
        by_cases h2a : r.biased_threshold <
            max (r.adjusted_score (s.take i)) (r.adjusted_score (s.drop i)) ∧
            r.recognized (s.drop i) = true
        · rw [if_pos h2a]
          exact hmem2 _ st.splits hst
        · rw [if_neg h2a]
          by_cases h3 : (f (s.drop i) ns).2.headD [] ≠ s.drop i
          · rw [if_pos h3]
            intro p hp
            rcases mem_insortPy hp with rfl | hp
            · exact hOKw h3 _
            · exact hst p hp
          · rw [if_neg h3]
            by_cases h3a : r.special_case (s.drop i) = true
            · rw [if_pos h3a]
              exact hmem2 _ st.splits hst
            · rw [if_neg h3a]
              exact hst
      · rw [if_neg h2]
        by_cases h4 : th < r.adjusted_score (s.drop i) ∧
            (r.recognized (s.take i) = true ∨ (s.take i).length ≤ r.length_cutoff ∨
              r.special_case (s.drop i) = true)
        · rw [if_pos h4]
          by_cases h4a : r.biased_threshold <
              max (r.adjusted_score (s.take i)) (r.adjusted_score (s.drop i))
          · rw [if_pos h4a]
            exact hmem2 _ st.splits hst
          · rw [if_neg h4a]
            by_cases h5 : r.recognized (s.drop i) = true
            · rw [if_pos h5]
              exact hmem2 _ st.splits hst
            · rw [if_neg h5]
              exact hst
        · rw [if_neg h4]
          exact hst

theorem scsStep_sorted (r : Ronin) (f : Str → ℚ → ℚ × List Str) (s : Str)
    (ns th : ℚ) (i : ℕ) (st : ScsSt)
    (hst : st.splits.Pairwise (fun a b => a.1 ≤ b.1)) :
    (scsStep r f s ns th i st).splits.Pairwise (fun a b => a.1 ≤ b.1) := by
  rw [scsStep]
  by_cases hskip : r.in_prefixes (s.take i) = true ∨
      (5 < s.length ∧ r.in_suffixes (s.drop i) = true)
  · rw [if_pos hskip]
    exact hst
  · rw [if_neg hskip]
    by_cases h1 : th < r.adjusted_score (s.take i) ∧ th < r.adjusted_score (s.drop i)
    · rw [if_pos h1]
      by_cases h1a : st.maxScore < r.adjusted_score (s.take i) + r.adjusted_score (s.drop i)
      · rw [if_pos h1a]
        exact insortPy_pairwise hst
      · rw [if_neg h1a]
        exact hst
    · rw [if_neg h1]
      by_cases h2 : th < r.adjusted_score (s.take i)
      · rw [if_pos h2]
        by_cases h2a : r.biased_threshold <
            max (r.adjusted_score (s.take i)) (r.adjusted_score (s.drop i)) ∧
            r.recognized (s.drop i) = true
        · rw [if_pos h2a]
          exact insortPy_pairwise hst
        · rw [if_neg h2a]
          by_cases h3 : (f (s.drop i) ns).2.headD [] ≠ s.drop i
          · rw [if_pos h3]
            exact insortPy_pairwise hst
          · rw [if_neg h3]
            by_cases h3a : r.special_case (s.drop i) = true
            · rw [if_pos h3a]
              exact insortPy_pairwise hst
            · rw [if_neg h3a]
              exact hst
      · rw [if_neg h2]
        by_cases h4 : th < r.adjusted_score (s.drop i) ∧
            (r.recognized (s.take i) = true ∨ (s.take i).length ≤ r.length_cutoff ∨
              r.special_case (s.drop i) = true)
        · rw [if_pos h4]
          by_cases h4a : r.biased_threshold <
              max (r.adjusted_score (s.take i)) (r.adjusted_score (s.drop i))
          · rw [if_pos h4a]
            exact insortPy_pairwise hst
          · rw [if_neg h4a]
            by_cases h5 : r.recognized (s.drop i) = true
            · rw [if_pos h5]
              exact insortPy_pairwise hst
            · rw [if_neg h5]
              exact hst
        · rw [if_neg h4]
          exact hst

theorem scsLoopGo_inv (r : Ronin) (f : Str → ℚ → ℚ × List Str) (s : Str) (ns th : ℚ)
    (hf : ∀ t, t.length < s.length → t ≠ [] →
      (f t ns).2 ≠ [] ∧ (f t ns).2.flatten = t ∧ ∀ u ∈ (f t ns).2, u ≠ []) :
    ∀ (k j : ℕ) (st : ScsSt),
    (∀ p ∈ st.splits, EntryOK r s p) ∧ st.splits.Pairwise (fun a b => a.1 ≤ b.1) →
    (∀ p ∈ (scsLoopGo r f s ns th k j st).splits, EntryOK r s p) ∧
      (scsLoopGo r f s ns th k j st).splits.Pairwise (fun a b => a.1 ≤ b.1)
  | 0, j, st => fun hst => hst
  | k + 1, j, st => by
    intro hst
    rw [scsLoopGo]
    by_cases h : j + 1 < s.length
    · rw [if_pos h]
      refine scsLoopGo_inv r f s ns th hf k (j + 1) _ ⟨?_, ?_⟩
      · refine scsStep_inv r f s ns th (j + 1) st (by omega) h ?_ hst.1
        refine hf (s.drop (j + 1)) ?_ ?_
        · rw [List.length_drop]
          omega
        · intro hc
          have := congrArg List.length hc
          simp only [List.length_drop, List.length_nil] at this
          omega
      · exact scsStep_sorted r f s ns th (j + 1) st hst.2
    · rw [if_neg h]
      exact hst

/-- Main structural invariant of `_same_case_split`: the result is a
non-empty partition of the input into non-empty tokens and, when it has
exactly two tokens, the cut is not one that the prefix/suffix veto
skipped. -/
theorem same_case_split_props (r : Ronin) : ∀ (n : ℕ) (s : Str), s.length ≤ n →
    s ≠ [] → ∀ ns : ℚ,
    (r.same_case_split s ns).2 ≠ [] ∧ (r.same_case_split s ns).2.flatten = s ∧
    (∀ t ∈ (r.same_case_split s ns).2, t ≠ []) ∧
    (∀ a b, (r.same_case_split s ns).2 = [a, b] →
      ¬(r.in_prefixes a = true ∨ (5 < s.length ∧ r.in_suffixes b = true))) := by
  intro n
  induction n with
  | zero =>
    intro s hn hne ns
    exact absurd (List.eq_nil_of_length_eq_zero (Nat.le_zero.mp hn)) hne
  | succ n ih =>
    intro s hn hne ns
    have hsingle : ([s] : List Str) ≠ [] ∧ ([s] : List Str).flatten = s ∧
        (∀ t ∈ ([s] : List Str), t ≠ []) ∧
        (∀ a b, ([s] : List Str) = [a, b] →
          ¬(r.in_prefixes a = true ∨ (5 < s.length ∧ r.in_suffixes b = true))) := by
      refine ⟨by simp, by simp, by simpa using hne, ?_⟩
      intro a b hab
      have := congrArg List.length hab
      simp at this
    rw [same_case_split_eq]
    by_cases hrec : r.recognized s = true
    · rw [if_pos hrec]
      exact hsingle
    · rw [if_neg hrec]
      have hloop := scsLoopGo_inv r (fun t m => r.same_case_split t m) s ns
        (max (r.adjusted_score s) ns)
        (fun t ht htne =>
          (ih t (by omega) htne ns).imp id (fun h => ⟨h.1, h.2.1⟩))
        s.length 0 ⟨-1, none, []⟩ (by constructor <;> simp)
      rw [scsSelect]
      match hlast : (scsLoopGo r (fun t m => r.same_case_split t m) s ns
          (max (r.adjusted_score s) ns) s.length 0 ⟨-1, none, []⟩).splits.getLast? with
      | some (altScore, altSplit) =>
        simp only []
        by_cases hsel : ns ≤ altScore / r.rpow ((altSplit.length : ℚ)) r.alt_exponent
        · rw [if_pos hsel]
          have hmem := getLast?_mem_list hlast
          have := hloop.1 _ hmem
          exact this
        · rw [if_neg hsel]
          exact hsingle
      | none =>
        simp only []
        exact hsingle

/-- An upper-to-lower camel transition of `s` at index `i` (a match of
`[A-Z][a-z]` starting at `i`). -/
def pairUL (s : Str) (i : ℕ) : Prop :=
  i + 1 < s.length ∧ (s.getD i ' ').isUpper = true ∧ (s.getD (i + 1) ' ').isLower = true

theorem pairUL_cons {a : Char} {l : Str} {j : ℕ} :
    pairUL (a :: l) (j + 1) ↔ pairUL l j := by
  rw [pairUL, pairUL]
  simp only [List.getD_cons_succ, List.length_cons]
  constructor
  · rintro ⟨h1, h2, h3⟩
    exact ⟨by omega, h2, h3⟩
  · rintro ⟨h1, h2, h3⟩
    exact ⟨by omega, h2, h3⟩

theorem findUL_some_pair : ∀ (s : Str) (i : ℕ), findUL s = some i → pairUL s i
  | [], i => by simp [findUL]
  | [c], i => by simp [findUL]
  | a :: b :: rest, i => by
    rw [findUL]
    by_cases h : (a.isUpper && b.isLower) = true
    · rw [if_pos h]
      intro he
      have : i = 0 := by simpa using he.symm
      subst this
      rcases Bool.and_eq_true_iff.mp h with ⟨h1, h2⟩
      refine ⟨by simp, by simpa using h1, by simpa using h2⟩
    · rw [if_neg h]
      intro he
      match hrec : findUL (b :: rest), he with
      | some j, _ =>
        rw [hrec] at he
        have : i = j + 1 := by simpa using he.symm
        subst this
        exact pairUL_cons.mpr (findUL_some_pair (b :: rest) j hrec)

theorem findUL_none_no_pair : ∀ (s : Str), findUL s = none → ∀ j, ¬ pairUL s j
  | [] => by
    intro _ j hp
    rcases hp with ⟨h, _⟩
    simp at h
  | [c] => by
    intro _ j hp
    rcases hp with ⟨h, _⟩
    simp at h
  | a :: b :: rest => by
    rw [findUL]
    by_cases h : (a.isUpper && b.isLower) = true
    · rw [if_pos h]
      intro he
      cases he
    · rw [if_neg h]
      intro he j hp
      match hrec : findUL (b :: rest) with
      | some i =>
        rw [hrec] at he
        simp at he
      | none =>
        match j with
        | 0 =>
          rcases hp with ⟨_, h1, h2⟩
          simp at h1 h2
          simp [h1, h2] at h
        | j + 1 =>
          exact findUL_none_no_pair (b :: rest) hrec j (pairUL_cons.mp hp)

theorem findUL_some_min : ∀ (s : Str) (i : ℕ), findUL s = some i →
    ∀ j < i, ¬ pairUL s j
  | [], i => by simp [findUL]
  | [c], i => by simp [findUL]
  | a :: b :: rest, i => by
    rw [findUL]
    by_cases h : (a.isUpper && b.isLower) = true
    · rw [if_pos h]
      intro he
      have : i = 0 := by simpa using he.symm
      subst this
      intro j hj
      omega
    · rw [if_neg h]
      intro he j hj hp
      match hrec : findUL (b :: rest), he with
      | some i', _ =>
        rw [hrec] at he
        have : i = i' + 1 := by simpa using he.symm
        subst this
        match j with
        | 0 =>
          rcases hp with ⟨_, h1, h2⟩
          simp at h1 h2
          simp [h1, h2] at h
        | j + 1 =>
          exact findUL_some_min (b :: rest) i' hrec j (by omega) (pairUL_cons.mp hp)

theorem findUL_of_first : ∀ (s : Str) (i : ℕ), pairUL s i → (∀ j < i, ¬ pairUL s j) →
    findUL s = some i
  | [], i => by
    intro hp
    rcases hp with ⟨h, _⟩
    simp at h
  | [c], i => by
    intro hp
    rcases hp with ⟨h, _⟩
    simp at h
  | a :: b :: rest, i => by
    intro hp hmin
    rw [findUL]
    by_cases h : (a.isUpper && b.isLower) = true
    · rw [if_pos h]
      match i with
      | 0 => rfl
      | i + 1 =>
        exfalso
        refine hmin 0 (by omega) ?_
        rcases Bool.and_eq_true_iff.mp h with ⟨h1, h2⟩
        exact ⟨by simp, by simpa using h1, by simpa using h2⟩
    · rw [if_neg h]
      match i with
      | 0 =>
        exfalso
        rcases hp with ⟨_, h1, h2⟩
        simp at h1 h2
        simp [h1, h2] at h
      | i + 1 =>
        rw [findUL_of_first (b :: rest) i (pairUL_cons.mp hp)
          (fun j hj hpj => hmin (j + 1) (by omega) (pairUL_cons.mpr hpj))]
        rfl

theorem camelStage_flatten (r : Ronin) (s : Str) :
    (r.camelStage s).flatten = s := by
  rw [Ronin.camelStage]
  match hUL : findUL s with
  | none => simp
  | some i =>
    have hp := findUL_some_pair s i hUL
    simp only []
    by_cases hcmp : r.adjusted_score (s.drop (i + 1)) * r.camel_bias ≤
        r.score (if 0 < i then s.drop i else s)
    · rw [if_pos hcmp]
      by_cases hi : 0 < i
      · rw [if_pos hi]
        simp [List.take_append_drop]
      · rw [if_neg hi]
        simp
    · rw [if_neg hcmp]
      simp [List.take_append_drop]

theorem camelStage_ne_nil (r : Ronin) (s : Str) (hne : s ≠ []) :
    ∀ t ∈ r.camelStage s, t ≠ [] := by
  rw [Ronin.camelStage]
  match hUL : findUL s with
  | none => simpa using hne
  | some i =>
    have hp := findUL_some_pair s i hUL
    have hlen : i + 1 < s.length := hp.1
    simp only []
    have htake : ∀ m : ℕ, 0 < m → s.take m ≠ [] := by
      intro m hm hc
      have := congrArg List.length hc
      simp only [List.length_take, List.length_nil] at this
      omega
    have hdrop : ∀ m : ℕ, m < s.length → s.drop m ≠ [] := by
      intro m hm hc
      have := congrArg List.length hc
      simp only [List.length_drop, List.length_nil] at this
      omega
    by_cases hcmp : r.adjusted_score (s.drop (i + 1)) * r.camel_bias ≤
        r.score (if 0 < i then s.drop i else s)
    · rw [if_pos hcmp]
      by_cases hi : 0 < i
      · rw [if_pos hi]
        intro t ht
        rcases List.mem_cons.mp ht with rfl | ht
        · exact htake i hi
        · simp at ht
          rw [ht]
          exact hdrop i (by omega)
      · rw [if_neg hi]
        simpa using hne
    · rw [if_neg hcmp]
      intro t ht
      rcases List.mem_cons.mp ht with rfl | ht
      · exact htake (i + 1) (by omega)
      · simp at ht
        rw [ht]
        exact hdrop (i + 1) hlen

-- Assembly of the pipeline facts for `heuristic_split` and `Ronin.split`.

theorem flatten_map_flatten {α : Type} : ∀ (L : List (List α)) (f : List α → List (List α)),
    (∀ p ∈ L, (f p).flatten = p) → ((L.map f).flatten).flatten = L.flatten
  | [], f, _ => rfl
  | p :: ps, f, h => by
    simp only [List.map_cons, List.flatten_cons, List.flatten_append]
    rw [h p (by simp), flatten_map_flatten ps f (fun q hq => h q (by simp [hq]))]

theorem mem_flatten_map {α β : Type} {t : β} {L : List α} {f : α → List β} :
    t ∈ (L.map f).flatten ↔ ∃ p ∈ L, t ∈ f p := by
  rw [List.mem_flatten]
  constructor
  · rintro ⟨l, hl, ht⟩
    rcases List.mem_map.mp hl with ⟨p, hp, rfl⟩
    exact ⟨p, hp, ht⟩
  · rintro ⟨p, hp, ht⟩
    exact ⟨f p, List.mem_map.mpr ⟨p, hp, rfl⟩, ht⟩

theorem heurPiece_flatten_keep (terms sufNums : List Str) (s : Str) :
    (heurPiece terms sufNums true s).flatten = s := by
  match s with
  | [] => rfl
  | c :: cs =>
    rw [heurPiece]
    by_cases h : lowerStr (c :: cs) ∈ terms ∨
        (c.isDigit = false ∧ endsWithAny sufNums (c :: cs) = true)
    · rw [if_pos h]
      simp
    · rw [if_neg h]
      simp only [if_true]
      exact digitRunsGo_flatten (c :: cs) []

theorem heurPiece_ne_nil (terms sufNums : List Str) (kn : Bool) (s : Str) :
    ∀ t ∈ heurPiece terms sufNums kn s, t ≠ [] := by
  match s with
  | [] => simp [heurPiece]
  | c :: cs =>
    rw [heurPiece]
    by_cases h : lowerStr (c :: cs) ∈ terms ∨
        (c.isDigit = false ∧ endsWithAny sufNums (c :: cs) = true)
    · rw [if_pos h]
      simp
    · rw [if_neg h]
      by_cases hk : kn = true
      · rw [hk, if_pos rfl]
        exact digitRunsGo_ne_nil (c :: cs) []
      · rw [Bool.not_eq_true] at hk
        rw [hk]
        simp only [Bool.false_eq_true, if_false]
        intro t ht
        exact digitRunsGo_ne_nil (c :: cs) [] t (List.mem_of_mem_filter ht)

theorem heuristic_split_flatten (terms sufNums : List Str) (id : Str)
    (hws : ∀ c ∈ id, c.isWhitespace = false) :
    (heuristic_split terms sufNums id true).flatten =
      id.filter (fun c => !(isDelim c)) := by
  rw [heuristic_split]
  rw [flatten_map_flatten _ _ (fun p _ => heurPiece_flatten_keep terms sufNums p)]
  rw [splitWs, splitWsGo_flatten]
  rw [List.nil_append, camelSub_filter, protectExceptions_filter, translateDelims_filter]
  exact hws

theorem heuristic_split_ne_nil (terms sufNums : List Str) (id : Str) (kn : Bool) :
    ∀ t ∈ heuristic_split terms sufNums id kn, t ≠ [] := by
  rw [heuristic_split]
  intro t ht
  rcases mem_flatten_map.mp ht with ⟨p, hp, htp⟩
  exact heurPiece_ne_nil terms sufNums kn p t htp

theorem heuristic_split_nil (terms sufNums : List Str) (kn : Bool) :
    heuristic_split terms sufNums [] kn = [] := rfl

theorem split_mem_structure (r : Ronin) (id : Str) (kn : Bool) {t : Str}
    (ht : t ∈ r.split id kn) :
    ∃ token, token ≠ [] ∧ t ∈ (r.same_case_split token (r.adjusted_score token)).2 := by
  rw [Ronin.split] at ht
  rcases mem_flatten_map.mp ht with ⟨token, htok, htmem⟩
  rcases mem_flatten_map.mp htok with ⟨s0, hs0, hs0m⟩
  have hs0ne : s0 ≠ [] := heuristic_split_ne_nil _ _ id kn s0 hs0
  refine ⟨token, ?_, htmem⟩
  by_cases hrec : r.recognized s0 = true
  · rw [if_pos hrec] at hs0m
    simp at hs0m
    rw [hs0m]
    exact hs0ne
  · rw [if_neg hrec] at hs0m
    exact camelStage_ne_nil r s0 hs0ne token hs0m

theorem split_tokens_ne_nil (r : Ronin) (id : Str) (kn : Bool) :
    ∀ t ∈ r.split id kn, t ≠ [] := by
  intro t ht
  rcases split_mem_structure r id kn ht with ⟨token, htokne, htmem⟩
  exact (same_case_split_props r token.length token le_rfl htokne
    (r.adjusted_score token)).2.2.1 t htmem

theorem split_nil (r : Ronin) (kn : Bool) : r.split [] kn = [] := rfl

theorem split_flatten (r : Ronin) (id : Str)
    (hws : ∀ c ∈ id, c.isWhitespace = false) :
    (r.split id true).flatten = id.filter (fun c => !(isDelim c)) := by
  rw [Ronin.split]
  have h1 : ∀ token ∈ ((heuristic_split r.common_terms_with_numbers
      r.common_suffix_numbers id true).map fun s =>
        if r.recognized s = true then [s] else r.camelStage s).flatten,
      ((r.same_case_split token (r.adjusted_score token)).2).flatten = token := by
    intro token htok
    rcases mem_flatten_map.mp htok with ⟨s0, hs0, hs0m⟩
    have hs0ne : s0 ≠ [] := heuristic_split_ne_nil _ _ id true s0 hs0
    have htokne : token ≠ [] := by
      by_cases hrec : r.recognized s0 = true
      · rw [if_pos hrec] at hs0m
        simp at hs0m
        rw [hs0m]
        exact hs0ne
      · rw [if_neg hrec] at hs0m
        exact camelStage_ne_nil r s0 hs0ne token hs0m
    exact (same_case_split_props r token.length token le_rfl htokne
      (r.adjusted_score token)).2.1
  rw [flatten_map_flatten _ _ h1]
  have h2 : ∀ s0 ∈ heuristic_split r.common_terms_with_numbers
      r.common_suffix_numbers id true,
      ((if r.recognized s0 = true then [s0] else r.camelStage s0) : List Str).flatten = s0 := by
    intro s0 _
    by_cases hrec : r.recognized s0 = true
    · rw [if_pos hrec]
      simp
    · rw [if_neg hrec]
      exact camelStage_flatten r s0
  rw [flatten_map_flatten _ _ h2]
  exact heuristic_split_flatten _ _ id hws

-- A small concrete splitter state used to instantiate hypotheses of the
-- claim theorems (an arbitrary but fully explicit member of `Ronin`).

def testR : Ronin where
  common_terms_with_numbers := [['u', 't', 'f', '8']]
  special_computing_terms := []
  prefixes := [['r', 'e']]
  suffixes := [['i', 'n', 'g']]
  common_suffix_numbers := [['3', '2']]
  dictionary := [['a', 'b'], ['c', 'a', 't']]
  stemmer := fun t => t
  rpow := fun b _ => b
  frequencies := some [(['a', 'b'], 500), (['c', 'a', 't'], 700)]
  highest_freq := 700
  length_cutoff := 2
  short_min_freq := 300
  low_freq_cutoff := 10
  normal_exponent := 1
  dict_word_exponent := 1
  camel_bias := 1
  recognition_bias := 0
  biased_threshold := 0
  alt_exponent := 1
  exact_case := false

/-- C1: for every ASCII identifier (whitespace-free, as identifiers are),
concatenating the tokens of `split(id, keep_numbers=true)` yields `id`
with every hard-delimiter character removed — no other character is
added, dropped, reordered or case-changed. -/
theorem claim_C1_concatenation (r : Ronin) (id : Str)
    (hws : ∀ c ∈ id, c.isWhitespace = false) :
    (r.split id true).flatten = id.filter (fun c => !(isDelim c)) :=
  split_flatten r id hws

theorem claim_C1_witness :
    (∀ c ∈ (['g', 'e', 't', '_', 'a', 'b'] : Str), c.isWhitespace = false) ∧
    (testR.split ['g', 'e', 't', '_', 'a', 'b'] true).flatten =
      (['g', 'e', 't', '_', 'a', 'b'] : Str).filter (fun c => !(isDelim c)) :=
  ⟨by decide, claim_C1_concatenation testR ['g', 'e', 't', '_', 'a', 'b'] (by decide)⟩

/-- C2: for every ASCII identifier and both values of `keep_numbers`,
`split` (of an initialized splitter) is total — it is a function in the
embedding, defined by structural recursion — and every token it returns
is non-empty; the empty identifier yields the empty list. -/
theorem claim_C2_totality (r : Ronin) (id : Str) (kn : Bool) :
    (∀ t ∈ r.split id kn, t ≠ []) ∧ (id = [] → r.split id kn = []) :=
  ⟨split_tokens_ne_nil r id kn, fun h => h ▸ split_nil r kn⟩

theorem claim_C2_witness :
    (∀ t ∈ testR.split ['a', 'b', '3'] true, t ≠ []) ∧ testR.split [] false = [] :=
  ⟨(claim_C2_totality testR ['a', 'b', '3'] true).1,
    (claim_C2_totality testR [] false).2 rfl⟩

/-- C5: the adjusted score is 0 for the empty token, 0 for a short
non-special token whose raw score is at most `short_min_freq`, 0 whenever
the raw score is at most `low_freq_cutoff`, and otherwise the raw score
raised to `dict_word_exponent` for recognized tokens and to
`normal_exponent` for others. -/
theorem claim_C5_adjusted_score (r : Ronin) (t : Str) :
    (t = [] → r.adjusted_score t = 0) ∧
    (t.length ≤ r.length_cutoff → r.special_case t = false →
      r.score t ≤ r.short_min_freq → r.adjusted_score t = 0) ∧
    (r.score t ≤ r.low_freq_cutoff → r.adjusted_score t = 0) ∧
    (¬(t.length ≤ r.length_cutoff ∧ r.special_case t = false ∧
        r.score t ≤ r.short_min_freq) →
      r.low_freq_cutoff < r.score t → t ≠ [] →
      r.adjusted_score t = r.rpow (r.score t)
        (if r.recognized t = true then r.dict_word_exponent else r.normal_exponent)) := by
  refine ⟨?_, ?_, ?_, ?_⟩
  · intro h
    rw [h, Ronin.adjusted_score]
    rfl
  · intro h1 h2 h3
    rw [Ronin.adjusted_score]
    by_cases h0 : t.length = 0
    · rw [if_pos h0]
    · rw [if_neg h0]
      simp only []
      rw [if_pos ⟨h1, h2, h3⟩]
  · intro h
    rw [Ronin.adjusted_score]
    by_cases h0 : t.length = 0
    · rw [if_pos h0]
    · rw [if_neg h0]
      simp only []
      by_cases h1 : t.length ≤ r.length_cutoff ∧ r.special_case t = false ∧
          r.score t ≤ r.short_min_freq
      · rw [if_pos h1]
      · rw [if_neg h1, if_pos h]
  · intro h1 h2 hne
    rw [Ronin.adjusted_score]
    rw [if_neg (by simpa using List.length_pos.mpr hne |>.ne')]
    simp only []
    rw [if_neg h1, if_neg (by exact not_le.mpr h2), Ronin.rescale]
    by_cases hrec : r.recognized t = true
    · rw [if_pos hrec, if_pos hrec]
    · rw [if_neg hrec, if_neg hrec]

theorem claim_C5_witness :
    testR.adjusted_score [] = 0 ∧
    testR.adjusted_score ['z'] = 0 ∧
    testR.adjusted_score ['c', 'a', 't'] = testR.rpow (testR.score ['c', 'a', 't'])
      (if testR.recognized ['c', 'a', 't'] = true then testR.dict_word_exponent
       else testR.normal_exponent) :=
  ⟨(claim_C5_adjusted_score testR []).1 rfl,
   (claim_C5_adjusted_score testR ['z']).2.2.1 (by decide),
   (claim_C5_adjusted_score testR ['c', 'a', 't']).2.2.2 (by decide) (by decide)
     (by decide)⟩

/-- C6: a split point whose left part (lower-cased) is in `prefixes`, or —
when the string is longer than 5 — whose right part (lower-cased) is in
`suffixes`, is skipped entirely by the scan (no case of the loop body
runs, the state is unchanged); consequently `sameCaseSplit` never returns
the two-token split cutting a blacklisted prefix off. -/
theorem claim_C6_prefix_suffix_veto (r : Ronin) :
    (∀ (f : Str → ℚ → ℚ × List Str) (s : Str) (ns th : ℚ) (i : ℕ) (st : ScsSt),
      r.in_prefixes (s.take i) = true ∨ (5 < s.length ∧ r.in_suffixes (s.drop i) = true) →
      scsStep r f s ns th i st = st) ∧
    (∀ (p rest : Str) (ns : ℚ), p ≠ [] → rest ≠ [] → r.in_prefixes p = true →
      (r.same_case_split (p ++ rest) ns).2 ≠ [p, rest]) := by
  constructor
  · intro f s ns th i st hskip
    rw [scsStep, if_pos hskip]
  · intro p rest ns hp hrest hpre hc
    have hne : p ++ rest ≠ [] := by simp [hp]
    have hprops := same_case_split_props r (p ++ rest).length (p ++ rest) le_rfl hne ns
    exact hprops.2.2.2 p rest hc (Or.inl hpre)

theorem claim_C6_witness :
    scsStep testR (fun t m => testR.same_case_split t m) ['r', 'e', 'x'] 0 0 2
      ⟨-1, none, []⟩ = ⟨-1, none, []⟩ ∧
    (testR.same_case_split (['r', 'e'] ++ ['x']) 0).2 ≠ [['r', 'e'], ['x']] :=
  ⟨(claim_C6_prefix_suffix_veto testR).1 _ ['r', 'e', 'x'] 0 0 2 ⟨-1, none, []⟩
      (by decide),
   (claim_C6_prefix_suffix_veto testR).2 ['r', 'e'] ['x'] 0 (by decide) (by decide)
      (by decide)⟩

/-- The state left by the scan phase of `_same_case_split` on input `s`
with floor `ns` (threshold `max(adj(s), ns)`, all indices processed). -/
def scsScan (r : Ronin) (s : Str) (ns : ℚ) : ScsSt :=
  scsLoopGo r (fun t m => r.same_case_split t m) s ns (max (r.adjusted_score s) ns)
    s.length 0 ⟨-1, none, []⟩

/-- Modelled from the spec (the selection rule exactly as claim C3 words
it): if a primary split was set during the scan it is returned; otherwise
the highest-scoring recorded alternate is rescaled by
`len(altSplit) ** alt_exponent` and compared against the original
threshold `T = max(adj(s), min_small)`, the alternate being returned iff
it clears that threshold and `[s]` otherwise. -/
def sameCaseSplitClaim (r : Ronin) (s : Str) (ns : ℚ) : List Str :=
  if r.recognized s = true then [s]
  else
    match (scsScan r s ns).primary with
    | some p => p
    | none =>
      match (scsScan r s ns).splits.getLast? with
      | some (a, l) =>
        if max (r.adjusted_score s) ns ≤ a / r.rpow ((l.length : ℚ)) r.alt_exponent
        then l else [s]
      | none => [s]

theorem scsLoopGo_sorted (r : Ronin) (f : Str → ℚ → ℚ × List Str) (s : Str)
    (ns th : ℚ) : ∀ (k j : ℕ) (st : ScsSt),
    st.splits.Pairwise (fun a b => a.1 ≤ b.1) →
    (scsLoopGo r f s ns th k j st).splits.Pairwise (fun a b => a.1 ≤ b.1)
  | 0, j, st => fun hst => hst
  | k + 1, j, st => by
    intro hst
    rw [scsLoopGo]
    by_cases h : j + 1 < s.length
    · rw [if_pos h]
      exact scsLoopGo_sorted r f s ns th k (j + 1) _
        (scsStep_sorted r f s ns th (j + 1) st hst)
    · rw [if_neg h]
      exact hst

/-- C3 (amended): after the scan, the selection is made from the single
sorted candidate list (primary and alternate candidates alike): its last
entry — which carries the maximal recorded score — is rescaled by
`len(split) ** alt_exponent` and compared against `score_ns` itself (the
floor argument as passed, not against `max(adj(s), score_ns)`); it is
returned iff `score_ns ≤` the rescaled score, `[s]` being returned
otherwise and also when nothing was recorded. -/
theorem claim_C3_selection (r : Ronin) (s : Str) (ns : ℚ)
    (hrec : r.recognized s = false) :
    (∀ q ∈ (scsScan r s ns).splits, ∀ g,
      (scsScan r s ns).splits.getLast? = some g → q.1 ≤ g.1) ∧
    r.same_case_split s ns =
      (match (scsScan r s ns).splits.getLast? with
       | some (a, l) =>
         if ns ≤ a / r.rpow ((l.length : ℚ)) r.alt_exponent then (a, l) else (ns, [s])
       | none => ((scsScan r s ns).maxScore, [s])) := by
  constructor
  · intro q hq g hg
    have hsorted : (scsScan r s ns).splits.Pairwise (fun a b => a.1 ≤ b.1) := by
      rw [scsScan]
      exact scsLoopGo_sorted r _ s ns (max (r.adjusted_score s) ns) s.length 0
        ⟨-1, none, []⟩ (by simp)
    exact pairwise_getLast_max hsorted hg q hq
  · rw [same_case_split_eq, if_neg (by simp [hrec])]
    rfl

theorem claim_C3_witness :
    (∀ q ∈ (scsScan testR ['z', 'q'] 0).splits, ∀ g,
      (scsScan testR ['z', 'q'] 0).splits.getLast? = some g → q.1 ≤ g.1) ∧
    testR.same_case_split ['z', 'q'] 0 =
      (match (scsScan testR ['z', 'q'] 0).splits.getLast? with
       | some (a, l) =>
         if (0 : ℚ) ≤ a / testR.rpow ((l.length : ℚ)) testR.alt_exponent then (a, l)
         else (0, [['z', 'q']])
       | none => ((scsScan testR ['z', 'q'] 0).maxScore, [['z', 'q']])) :=
  claim_C3_selection testR ['z', 'q'] 0 (by decide)

/-- A concrete splitter state on which the code's selection rule and the
selection rule of claim C3 disagree. -/
def cfgC3 : Ronin where
  common_terms_with_numbers := []
  special_computing_terms := []
  prefixes := []
  suffixes := []
  common_suffix_numbers := []
  dictionary := [['b', 'c']]
  stemmer := fun t => t
  rpow := fun b _ => b
  frequencies := some [(['b', 'c'], 10), (['a', 'b', 'c'], 6)]
  highest_freq := 10
  length_cutoff := 1
  short_min_freq := -1
  low_freq_cutoff := 0
  normal_exponent := 1
  dict_word_exponent := 1
  camel_bias := 1
  recognition_bias := 0
  biased_threshold := 1000000
  alt_exponent := 1
  exact_case := false

theorem claim_C3_counterexample :
    sameCaseSplitClaim cfgC3 ['a', 'b', 'c'] 5 ≠
      (cfgC3.same_case_split ['a', 'b', 'c'] 5).2 := by decide

/-- Modelled from the spec (claim C4's words): index of the first match of
`[a-z][A-Z]`, a lower-to-upper transition — the direction the claim
asserts, whereas the code searches `[A-Z][a-z]`. -/
def findLU : Str → Option ℕ
  | [] => none
  | [_] => none
  | a :: b :: rest =>
    if a.isLower && b.isUpper then some 0
    else (findLU (b :: rest)).map (· + 1)

/-- Modelled from the spec (claim C4's words): the per-piece camel stage
with the transition located by `[a-z][A-Z]` instead of the code's
`[A-Z][a-z]`, everything else as in the code. -/
def camelStageClaim (r : Ronin) (s : Str) : List Str :=
  match findLU s with
  | none => [s]
  | some i =>
    let camel := if 0 < i then s.drop i else s
    let camelScore := r.score camel
    let altScore := r.adjusted_score (s.drop (i + 1)) * r.camel_bias
    if altScore ≤ camelScore then
      if 0 < i then [s.take i, s.drop i] else [s]
    else [s.take (i + 1), s.drop (i + 1)]

theorem claim_C4_counterexample :
    testR.recognized ['a', 'B', 'c'] = false ∧
    camelStageClaim testR ['a', 'B', 'c'] ≠ testR.camelStage ['a', 'B', 'c'] := by
  decide

/-- C4 (amended): for an elementary piece the camel pass locates the first
upper-to-lower transition (`[A-Z][a-z]`, not `[a-z][A-Z]` as the spec
words it) at index `i`; at `i > 0` it yields `[s[..i], s[i..]]` when
`adj(s[i+1..]) * camel_bias ≤ raw(s[i..])` and `[s[..i+1], s[i+1..]]`
otherwise; at `i = 0` the same comparison is made with
`camel_score = raw(s)`, the piece staying whole when the camel score
prevails; a piece without such a transition stays whole. -/
theorem claim_C4_camel_stage (r : Ronin) (s : Str) :
    ((∀ j, ¬ pairUL s j) → r.camelStage s = [s]) ∧
    (∀ i, pairUL s i → (∀ j < i, ¬ pairUL s j) →
      r.camelStage s =
        if 0 < i then
          (if r.adjusted_score (s.drop (i + 1)) * r.camel_bias ≤ r.score (s.drop i)
           then [s.take i, s.drop i] else [s.take (i + 1), s.drop (i + 1)])
        else
          (if r.adjusted_score (s.drop 1) * r.camel_bias ≤ r.score s
           then [s] else [s.take 1, s.drop 1])) := by
  constructor
  · intro hno
    rw [Ronin.camelStage]
    match hUL : findUL s with
    | none => rfl
    | some i => exact absurd (findUL_some_pair s i hUL) (hno i)
  · intro i hpair hmin
    rw [Ronin.camelStage, findUL_of_first s i hpair hmin]
    simp only []
    by_cases hi : 0 < i
    · rw [if_pos hi, if_pos hi, if_pos hi]
    · have hi0 : i = 0 := by omega
      subst hi0
      simp only [lt_self_iff_false, if_false, Nat.zero_add]

theorem claim_C4_witness :
    pairUL ['X', 'y'] 0 ∧
    testR.camelStage ['X', 'y'] =
      (if 0 < 0 then
        (if testR.adjusted_score ((['X', 'y'] : Str).drop (0 + 1)) * testR.camel_bias ≤
            testR.score ((['X', 'y'] : Str).drop 0)
         then [(['X', 'y'] : Str).take 0, (['X', 'y'] : Str).drop 0]
         else [(['X', 'y'] : Str).take (0 + 1), (['X', 'y'] : Str).drop (0 + 1)])
       else
        (if testR.adjusted_score ((['X', 'y'] : Str).drop 1) * testR.camel_bias ≤
            testR.score ['X', 'y']
         then [['X', 'y']] else [(['X', 'y'] : Str).take 1, (['X', 'y'] : Str).drop 1])) :=
  ⟨⟨by decide, by decide, by decide⟩,
   (claim_C4_camel_stage testR ['X', 'y']).2 0 ⟨by decide, by decide, by decide⟩
    (fun j hj => absurd hj (by omega))⟩

theorem upsertMax_ne_nil (m : List (Str × ℚ)) (k : Str) (v : ℚ) (hm : m ≠ []) :
    upsertMax m k v ≠ [] := by
  rw [upsertMax]
  by_cases h : (lookupA m k).isSome
  · rw [if_pos h]
    simpa using hm
  · rw [if_neg h]
    simp

theorem foldl_upsertMax_ne_nil : ∀ (tbl : List (Str × ℚ)) (m : List (Str × ℚ)),
    m ≠ [] → tbl.foldl (fun m p => upsertMax m (lowerStr p.1) p.2) m ≠ []
  | [], m, hm => hm
  | p :: ps, m, hm => by
    rw [List.foldl_cons]
    exact foldl_upsertMax_ne_nil ps _ (upsertMax_ne_nil m (lowerStr p.1) p.2 hm)

theorem collapseCase_ne_nil (tbl : List (Str × ℚ)) (h : tbl ≠ []) :
    collapseCase tbl ≠ [] := by
  match tbl, h with
  | p :: ps, _ =>
    rw [collapseCase, List.foldl_cons]
    exact foldl_upsertMax_ne_nil ps _ (by rw [upsertMax]; simp [lookupA])

theorem pyMaxQ_eq_none {l : List ℚ} : pyMaxQ l = none ↔ l = [] := by
  match l with
  | [] => simp [pyMaxQ]
  | v :: vs => simp [pyMaxQ]

theorem pyMaxQ_ne_none {l : List ℚ} (h : l ≠ []) : pyMaxQ l ≠ none := by
  match l, h with
  | v :: vs, _ => simp [pyMaxQ]

theorem stored_branch_ne_nil (pc : Bool) {tbl : List (Str × ℚ)} (h : tbl ≠ []) :
    (if pc = true then tbl else collapseCase tbl) ≠ [] := by
  cases pc
  · simpa using collapseCase_ne_nil tbl h
  · simpa using h

/-- C7 (amended): init fails exactly when the frequency table it ends up
using is empty: nothing stored yet, no non-empty `frequencies` argument,
and either the default artifact is missing (`ValueError` in the source) or
it parses to an empty table — including the corrupt-artifact case, which
the loader `frequencies_from_pickle` swallows into an empty dict, making
`max()` raise.  Numeric parameters are never range-checked, and with a
table already stored init never fails. -/
theorem claim_C7_init_failure (r : Ronin) (freqArg : Option (List (Str × ℚ)))
    (artifact : Option (Option (List (Str × ℚ)))) (p : InitParams) :
    r.init freqArg artifact p = none ↔
      r.freqFalsy = true ∧ (freqArg.getD []).isEmpty = true ∧
        (artifact = none ∨ ((artifact.getD none).getD []).isEmpty = true) := by
  by_cases hfal : r.freqFalsy = true
  · have hstored : ∀ (parse : Option (List (Str × ℚ))),
        (frequencies_from_pickle parse) = parse.getD [] := fun _ => rfl
    match freqArg with
    | some tbl =>
      by_cases htbl : tbl.isEmpty = true
      · match artifact with
        | none =>
          simp [Ronin.init, hfal, htbl]
        | some parse =>
          match hpt : parse.getD [] with
          | [] =>
            cases p.exact_case <;>
              simp [Ronin.init, hfal, htbl, frequencies_from_pickle, hpt,
                collapseCase, pyMaxQ]
          | u :: us =>
            have hne : frequencies_from_pickle parse ≠ [] := by
              rw [hstored, hpt]
              simp
            have hbr := stored_branch_ne_nil p.exact_case hne
            rcases List.exists_cons_of_ne_nil hbr with ⟨q, qs, hq⟩
            have hm : pyMaxQ (((if p.exact_case = true then frequencies_from_pickle parse
                else collapseCase (frequencies_from_pickle parse))).map Prod.snd) ≠
                none := by
              rw [hq]
              exact pyMaxQ_ne_none (by simp)
            rcases Option.ne_none_iff_exists'.mp hm with ⟨v, hv⟩
            simp [Ronin.init, hfal, htbl, hv, hpt]
      · have htne : tbl ≠ [] := by
          intro hc
          rw [hc] at htbl
          simp at htbl
        have hbr := stored_branch_ne_nil p.exact_case htne
        rcases List.exists_cons_of_ne_nil hbr with ⟨q, qs, hq⟩
        have hm : pyMaxQ (((if p.exact_case = true then tbl
            else collapseCase tbl)).map Prod.snd) ≠ none := by
          rw [hq]
          exact pyMaxQ_ne_none (by simp)
        rcases Option.ne_none_iff_exists'.mp hm with ⟨v, hv⟩
        simp [Ronin.init, hfal, htbl, hv]
    | none =>
      match artifact with
      | none =>
        simp [Ronin.init, hfal]
      | some parse =>
        match hpt : parse.getD [] with
        | [] =>
          cases p.exact_case <;>
            simp [Ronin.init, hfal, frequencies_from_pickle, hpt, collapseCase,
              pyMaxQ]
        | u :: us =>
          have hne : frequencies_from_pickle parse ≠ [] := by
            rw [hstored, hpt]
            simp
          have hbr := stored_branch_ne_nil p.exact_case hne
          rcases List.exists_cons_of_ne_nil hbr with ⟨q, qs, hq⟩
          have hm : pyMaxQ (((if p.exact_case = true then frequencies_from_pickle parse
              else collapseCase (frequencies_from_pickle parse))).map Prod.snd) ≠
              none := by
            rw [hq]
            exact pyMaxQ_ne_none (by simp)
          rcases Option.ne_none_iff_exists'.mp hm with ⟨v, hv⟩
          simp [Ronin.init, hfal, hv, hpt]
  · have hne : ∃ t, r.frequencies = some t ∧ t ≠ [] := by
      rw [Ronin.freqFalsy] at hfal
      match hr : r.frequencies with
      | none => rw [hr] at hfal; simp at hfal
      | some t =>
        rw [hr] at hfal
        simp at hfal
        exact ⟨t, rfl, by simpa using hfal⟩
    rcases hne with ⟨t, ht, htne⟩
    have hm : pyMaxQ (t.map Prod.snd) ≠ none := by
      rcases List.exists_cons_of_ne_nil htne with ⟨q, qs, hq⟩
      rw [hq]
      exact pyMaxQ_ne_none (by simp)
    rcases Option.ne_none_iff_exists'.mp hm with ⟨v, hv⟩
    simp [Ronin.init, hfal, ht, hv]

/-- Numeric arguments violating every documented range of the spec's §4.2
parameter table (exponents outside (0,1), negative bias and cutoff,
`alt_exponent` below 1). -/
def badParams : InitParams where
  exact_case := false
  low_freq_cutoff := -5
  length_cutoff := 2
  short_min_freq := -100
  normal_exponent := 7
  dict_word_exponent := -3
  camel_bias := -1
  recognition_bias := -1
  alt_exponent := 0

theorem claim_C7_counterexample :
    (Ronin.init { testR with frequencies := none } (some [(['a'], 7)]) none
      badParams).isSome = true := by decide

/-- C10: once a table is stored, a later `init` keeps it unchanged even
when a new `frequencies` argument is supplied, while every numeric
parameter, the `exact_case` flag and the derived quantities
(`highest_freq`, `biased_threshold`, from which the scoring closure is
rebuilt) are replaced by the new call's values. -/
theorem claim_C10_reinit (r : Ronin) (tbl : List (Str × ℚ))
    (hf : r.frequencies = some tbl) (hne : tbl ≠ [])
    (freqArg : Option (List (Str × ℚ)))
    (artifact : Option (Option (List (Str × ℚ)))) (p : InitParams)
    (hfq : ℚ) (hmax : pyMaxQ (tbl.map Prod.snd) = some hfq) :
    r.init freqArg artifact p =
      some { r with
             frequencies := some tbl,
             exact_case := p.exact_case,
             highest_freq := hfq,
             recognition_bias := p.recognition_bias,
             biased_threshold := p.recognition_bias * hfq,
             low_freq_cutoff := p.low_freq_cutoff,
             length_cutoff := p.length_cutoff,
             short_min_freq := p.short_min_freq,
             normal_exponent := p.normal_exponent,
             dict_word_exponent := p.dict_word_exponent,
             camel_bias := p.camel_bias,
             alt_exponent := p.alt_exponent } := by
  have hfal : r.freqFalsy = false := by
    rw [Ronin.freqFalsy, hf]
    simpa using hne
  simp [Ronin.init, hfal, hf, hmax]

/-- Parameter record with values distinct from `testR`'s, for the C10
witness. -/
def newParams : InitParams where
  exact_case := true
  low_freq_cutoff := 42
  length_cutoff := 3
  short_min_freq := 9
  normal_exponent := 2
  dict_word_exponent := 3
  camel_bias := 4
  recognition_bias := 5
  alt_exponent := 6

theorem claim_C10_witness :
    testR.init (some [(['z'], 1)]) none newParams =
      some { testR with
             frequencies := some [(['a', 'b'], 500), (['c', 'a', 't'], 700)],
             exact_case := newParams.exact_case,
             highest_freq := 700,
             recognition_bias := newParams.recognition_bias,
             biased_threshold := newParams.recognition_bias * 700,
             low_freq_cutoff := newParams.low_freq_cutoff,
             length_cutoff := newParams.length_cutoff,
             short_min_freq := newParams.short_min_freq,
             normal_exponent := newParams.normal_exponent,
             dict_word_exponent := newParams.dict_word_exponent,
             camel_bias := newParams.camel_bias,
             alt_exponent := newParams.alt_exponent } :=
  claim_C10_reinit testR [(['a', 'b'], 500), (['c', 'a', 't'], 700)] rfl
    (by decide) (some [(['z'], 1)]) none newParams 700 (by decide)

theorem isLower_not_delim {c : Char} (h : c.isLower = true) : isDelim c = false := by
  have hb := char_isLower_iff.mp h
  by_contra hc
  rw [Bool.not_eq_false] at hc
  have := char_isDelim_iff.mp hc
  omega

theorem isLower_not_ws {c : Char} (h : c.isLower = true) : c.isWhitespace = false := by
  have hb := char_isLower_iff.mp h
  by_contra hc
  rw [Bool.not_eq_false] at hc
  have := char_isWhitespace_iff.mp hc
  omega

theorem isLower_not_upper {c : Char} (h : c.isLower = true) : c.isUpper = false := by
  have hb := char_isLower_iff.mp h
  by_contra hc
  rw [Bool.not_eq_false] at hc
  have := char_isUpper_iff.mp hc
  omega

theorem isLower_not_digit {c : Char} (h : c.isLower = true) : c.isDigit = false := by
  have hb := char_isLower_iff.mp h
  by_contra hc
  rw [Bool.not_eq_false] at hc
  have := char_isDigit_iff.mp hc
  omega

theorem lowerStr_all_lower {s : Str} (h : ∀ c ∈ s, c.isLower = true) :
    lowerStr s = s := by
  rw [lowerStr]
  induction s with
  | nil => rfl
  | cons c cs ih =>
    rw [List.map_cons, toLower_eq_of_isLower (h c (by simp))]
    rw [ih (fun d hd => h d (by simp [hd]))]

theorem firstMatch_none_all_lower (terms : List Str)
    (hE : ∀ u ∈ terms, ∃ c ∈ u, c.isDigit = true) (s : Str)
    (hs : ∀ c ∈ s, c.isLower = true) : firstMatch terms s = none := by
  induction terms with
  | nil => rfl
  | cons t ts ih =>
    rw [firstMatch]
    rw [if_neg, ih (fun u hu => hE u (by simp [hu]))]
    rintro ⟨htne, hlen, heq⟩
    rcases hE t (by simp) with ⟨d, hd, hdig⟩
    have hdl : Char.toLower d = d := toLower_eq_of_isDigit hdig
    have : Char.toLower d ∈ lowerStr t := List.mem_map.mpr ⟨d, hd, rfl⟩
    rw [← heq] at this
    rcases List.mem_map.mp this with ⟨c, hc, hceq⟩
    have hcl : c.isLower = true := hs c (List.mem_of_mem_take hc)
    rw [toLower_eq_of_isLower hcl] at hceq
    rw [hdl] at hceq
    rw [hceq] at hcl
    rw [isLower_not_digit hcl] at hdig
    cases hdig

theorem protectGo_all_lower (terms : List Str)
    (hE : ∀ u ∈ terms, ∃ c ∈ u, c.isDigit = true) :
    ∀ (fuel : ℕ) (s : Str), (∀ c ∈ s, c.isLower = true) →
    protectGo terms fuel s = s
  | fuel, [] => by
    intro _
    cases fuel <;> rfl
  | 0, c :: cs => fun _ => rfl
  | fuel + 1, c :: cs => by
    intro hs
    rw [protectGo, firstMatch_none_all_lower terms hE (c :: cs) hs]
    simp only []
    rw [protectGo_all_lower terms hE fuel cs (fun d hd => hs d (by simp [hd]))]

theorem findUL_no_upper : ∀ (s : Str), (∀ c ∈ s, c.isUpper = false) →
    findUL s = none
  | [], _ => rfl
  | [c], _ => rfl
  | a :: b :: rest, h => by
    rw [findUL]
    rw [if_neg (by simp [h a (by simp)])]
    rw [findUL_no_upper (b :: rest) (fun c hc => h c (by simp at hc ⊢; tauto))]
    rfl

theorem heuristic_split_all_lower (terms sufNums : List Str) (t : Str)
    (hne : t ≠ []) (hlow : ∀ c ∈ t, c.isLower = true)
    (hE : ∀ u ∈ terms, ∃ c ∈ u, c.isDigit = true) :
    heuristic_split terms sufNums t true = [t] := by
  rw [heuristic_split]
  rw [translateDelims_no_delim t (fun c hc => isLower_not_delim (hlow c hc))]
  rw [protectExceptions, protectGo_all_lower terms hE t.length t hlow]
  rw [camelSub_no_upper t (fun c hc => isLower_not_upper (hlow c hc))]
  rw [splitWs_no_ws t hne (fun c hc => isLower_not_ws (hlow c hc))]
  rw [List.map_cons, List.map_nil, List.flatten]
  match t, hne with
  | c :: cs, _ =>
    rw [heurPiece]
    by_cases h : lowerStr (c :: cs) ∈ terms ∨
        ((c.isDigit = false) ∧ endsWithAny sufNums (c :: cs) = true)
    · rw [if_pos h]
      simp
    · rw [if_neg h]
      simp only [if_true]
      rw [digitRuns_all_nondigit (c :: cs) (by simp)
        (fun d hd => isLower_not_digit (hlow d hd))]
      simp

theorem same_case_split_single (r : Ronin) (c : Char) (ns : ℚ) :
    (r.same_case_split [c] ns).2 = [[c]] := by
  rw [same_case_split_eq]
  by_cases hrec : r.recognized [c] = true
  · rw [if_pos hrec]
  · rw [if_neg hrec]
    have hloop : scsLoopGo r (fun t m => r.same_case_split t m) [c] ns
        (max (r.adjusted_score [c]) ns) ([c] : Str).length 0 ⟨-1, none, []⟩ =
        ⟨-1, none, []⟩ := by
      have hlen : ([c] : Str).length = 1 := rfl
      rw [hlen, scsLoopGo]
      rw [if_neg (by simp)]
    rw [hloop, scsSelect]
    rfl

/-- C9: a token of any `split` output that consists only of lowercase
ASCII letters and is a dictionary word re-splits to itself:
`split(t) = [t]`. -/
theorem claim_C9_resplit_identity (r : Ronin) (id : Str) (kn : Bool) (t : Str)
    (hmem : t ∈ r.split id kn)
    (hlow : ∀ c ∈ t, c.isLower = true)
    (hdict : t ∈ r.dictionary)
    (hE : ∀ u ∈ r.common_terms_with_numbers, ∃ c ∈ u, c.isDigit = true) :
    r.split t true = [t] := by
  have hne : t ≠ [] := split_tokens_ne_nil r id kn t hmem
  have hlower : lowerStr t = t := lowerStr_all_lower hlow
  rw [Ronin.split]
  rw [heuristic_split_all_lower r.common_terms_with_numbers r.common_suffix_numbers
    t hne hlow hE]
  by_cases hrec : r.recognized t = true
  · rw [List.map_cons, List.map_nil, if_pos hrec]
    rw [show (([t] : List Str) :: []).flatten = [t] by simp]
    rw [List.map_cons, List.map_nil]
    rw [same_case_split_eq, if_pos hrec]
    simp
  · rw [List.map_cons, List.map_nil, if_neg hrec]
    have hcamel : r.camelStage t = [t] := by
      rw [Ronin.camelStage,
        findUL_no_upper t (fun c hc => isLower_not_upper (hlow c hc))]
    rw [hcamel]
    rw [show (([t] : List Str) :: []).flatten = [t] by simp]
    rw [List.map_cons, List.map_nil]
    have hsingle : ∃ c, t = [c] := by
      by_cases hlen2 : t.length ≤ 1
      · match t, hne, hlen2 with
        | [c], _, _ => exact ⟨c, rfl⟩
        | c1 :: c2 :: cs, _, hlen2 => simp at hlen2
      · exfalso
        apply hrec
        rw [Ronin.recognized, hlower]
        have hdic : r.in_dictionary t = true := by
          rw [Ronin.in_dictionary, if_neg hlen2]
          simp [hdict]
        rw [hdic]
        simp
    rcases hsingle with ⟨c, hc⟩
    rw [hc, same_case_split_single]
    simp

theorem claim_C9_witness :
    (['a', 'b'] ∈ testR.split ['a', 'b'] true) ∧
    testR.split ['a', 'b'] true = [['a', 'b']] :=
  ⟨by decide, claim_C9_resplit_identity testR ['a', 'b'] true ['a', 'b'] (by decide)
    (by decide) (by decide) (by decide)⟩

-- Character and matching facts for the exception-preservation claim.

theorem isDigit_not_ws {c : Char} (h : c.isDigit = true) : c.isWhitespace = false := by
  have hb := char_isDigit_iff.mp h
  by_contra hc
  rw [Bool.not_eq_false] at hc
  have := char_isWhitespace_iff.mp hc
  omega

theorem isDigit_not_delim {c : Char} (h : c.isDigit = true) : isDelim c = false := by
  have hb := char_isDigit_iff.mp h
  by_contra hc
  rw [Bool.not_eq_false] at hc
  have := char_isDelim_iff.mp hc
  omega

theorem isDigit_not_upper {c : Char} (h : c.isDigit = true) : c.isUpper = false := by
  have hb := char_isDigit_iff.mp h
  by_contra hc
  rw [Bool.not_eq_false] at hc
  have := char_isUpper_iff.mp hc
  omega

theorem isAlpha_not_delim {c : Char} (h : c.isAlpha = true) : isDelim c = false := by
  rcases Bool.or_eq_true_iff.mp (by simpa [Char.isAlpha] using h) with hu | hl
  · have hb := char_isUpper_iff.mp hu
    by_contra hc
    rw [Bool.not_eq_false] at hc
    have := char_isDelim_iff.mp hc
    omega
  · exact isLower_not_delim hl

theorem isAlpha_not_ws {c : Char} (h : c.isAlpha = true) : c.isWhitespace = false := by
  rcases Bool.or_eq_true_iff.mp (by simpa [Char.isAlpha] using h) with hu | hl
  · have hb := char_isUpper_iff.mp hu
    by_contra hc
    rw [Bool.not_eq_false] at hc
    have := char_isWhitespace_iff.mp hc
    omega
  · exact isLower_not_ws hl

theorem isAlpha_toLower_not_digit {c : Char} (h : c.isAlpha = true) :
    (Char.toLower c).isDigit = false := by
  rcases Bool.or_eq_true_iff.mp (by simpa [Char.isAlpha] using h) with hu | hl
  · have hb := char_isUpper_iff.mp hu
    by_contra hc
    rw [Bool.not_eq_false] at hc
    have h2 := char_isDigit_iff.mp hc
    rw [toNat_toLower_of_isUpper hu] at h2
    omega
  · rw [toLower_eq_of_isLower hl]
    exact isLower_not_digit hl

theorem lowerStr_lower_digit {s : Str}
    (h : ∀ c ∈ s, c.isLower = true ∨ c.isDigit = true) : lowerStr s = s := by
  rw [lowerStr]
  induction s with
  | nil => rfl
  | cons c cs ih =>
    rw [List.map_cons]
    rcases h c (by simp) with hl | hd
    · rw [toLower_eq_of_isLower hl, ih (fun d hd => h d (by simp [hd]))]
    · rw [toLower_eq_of_isDigit hd, ih (fun d hd => h d (by simp [hd]))]

theorem firstMatch_none_all_alpha (terms : List Str)
    (hE : ∀ u ∈ terms, ∃ c ∈ u, c.isDigit = true) (s : Str)
    (hs : ∀ c ∈ s, c.isAlpha = true) : firstMatch terms s = none := by
  induction terms with
  | nil => rfl
  | cons t ts ih =>
    rw [firstMatch]
    rw [if_neg, ih (fun u hu => hE u (by simp [hu]))]
    rintro ⟨htne, hlen, heq⟩
    rcases hE t (by simp) with ⟨d, hd, hdig⟩
    have hdl : Char.toLower d = d := toLower_eq_of_isDigit hdig
    have : Char.toLower d ∈ lowerStr t := List.mem_map.mpr ⟨d, hd, rfl⟩
    rw [← heq] at this
    rcases List.mem_map.mp this with ⟨c, hc, hceq⟩
    have hca : c.isAlpha = true := hs c (List.mem_of_mem_take hc)
    have := isAlpha_toLower_not_digit hca
    rw [hceq, hdl] at this
    rw [this] at hdig
    cases hdig

theorem protectGo_all_alpha (terms : List Str)
    (hE : ∀ u ∈ terms, ∃ c ∈ u, c.isDigit = true) :
    ∀ (fuel : ℕ) (s : Str), (∀ c ∈ s, c.isAlpha = true) →
    protectGo terms fuel s = s
  | fuel, [] => by
    intro _
    cases fuel <;> rfl
  | 0, c :: cs => fun _ => rfl
  | fuel + 1, c :: cs => by
    intro hs
    rw [protectGo, firstMatch_none_all_alpha terms hE (c :: cs) hs]
    simp only []
    rw [protectGo_all_alpha terms hE fuel cs (fun d hd => hs d (by simp [hd]))]

theorem protect_reach_base (terms : List Str)
    (hE : ∀ u ∈ terms, ∃ c ∈ u, c.isDigit = true)
    (α e : Str) (hαch : ∀ c ∈ α, c.isAlpha = true) (hene : e ≠ [])
    (hFirst : firstMatch terms (e ++ α) = some (e, α)) (fuel : ℕ)
    (hfuel : 1 ≤ fuel) :
    protectGo terms fuel (e ++ α) = ' ' :: (e ++ ' ' :: α) := by
  match e, hene, fuel, hfuel with
  | c :: cs, _, g + 1, _ =>
    rw [List.cons_append, protectGo, ← List.cons_append, hFirst]
    simp only []
    rw [protectGo_all_alpha terms hE g α hαch]

theorem protect_reach (terms : List Str)
    (hE : ∀ u ∈ terms, ∃ c ∈ u, c.isDigit = true)
    (α e : Str) (hαch : ∀ c ∈ α, c.isAlpha = true) (hene : e ≠ [])
    (hFirst : firstMatch terms (e ++ α) = some (e, α))
    (hNoCross : ∀ p < α.length, ∀ m rest,
      firstMatch terms ((α ++ (e ++ α)).drop p) = some (m, rest) →
      p + m.length ≤ α.length) :
    ∀ (k p : ℕ), α.length - p ≤ k → p ≤ α.length →
    ∀ fuel, ((α ++ (e ++ α)).drop p).length ≤ fuel →
    ∃ W, protectGo terms fuel ((α ++ (e ++ α)).drop p) =
        W ++ ' ' :: (e ++ ' ' :: α) ∧ ∀ c ∈ W, c = ' ' ∨ c.isAlpha = true := by
  intro k
  induction k with
  | zero =>
    intro p hk hp fuel hfuel
    have hpeq : p = α.length := by omega
    subst hpeq
    rw [List.drop_left] at hfuel ⊢
    refine ⟨[], ?_, by simp⟩
    rw [List.nil_append]
    refine protect_reach_base terms hE α e hαch hene hFirst fuel ?_
    have : 1 ≤ (e ++ α).length := by
      match e, hene with
      | c :: cs, _ => simp
    omega
  | succ k ih =>
    intro p hk hp fuel hfuel
    by_cases hpeq : p = α.length
    · subst hpeq
      rw [List.drop_left] at hfuel ⊢
      refine ⟨[], ?_, by simp⟩
      rw [List.nil_append]
      refine protect_reach_base terms hE α e hαch hene hFirst fuel ?_
      have : 1 ≤ (e ++ α).length := by
        match e, hene with
        | c :: cs, _ => simp
      omega
    · have hplt : p < α.length := by omega
      have hdropform : (α ++ (e ++ α)).drop p = α.drop p ++ (e ++ α) :=
        List.drop_append_of_le_length (by omega)
      have hdropne : α.drop p ≠ [] := by
        intro hc
        have := congrArg List.length hc
        simp only [List.length_drop, List.length_nil] at this
        omega
      rcases List.exists_cons_of_ne_nil hdropne with ⟨c, cs, hcc⟩
      have hlenpos : 1 ≤ ((α ++ (e ++ α)).drop p).length := by
        rw [hdropform, hcc]
        simp
      match fuel, (by omega : 1 ≤ fuel) with
      | g + 1, _ =>
        rw [hdropform, hcc, List.cons_append, protectGo, ← List.cons_append, ← hcc,
          ← hdropform]
        match hm : firstMatch terms ((α ++ (e ++ α)).drop p) with
        | none =>
          simp only []
          have hdropsucc : cs ++ (e ++ α) = (α ++ (e ++ α)).drop (p + 1) := by
            have h1 : ((α ++ (e ++ α)).drop p).drop 1 = (α ++ (e ++ α)).drop (p + 1) := by
              rw [List.drop_drop]
            rw [← h1, hdropform, hcc]
            rfl
          rw [hdropsucc]
          have hlen1 : ((α ++ (e ++ α)).drop (p + 1)).length ≤ g := by
            simp only [List.length_drop] at hfuel ⊢
            omega
          rcases ih (p + 1) (by omega) (by omega) g hlen1 with ⟨W, hW, hWch⟩
          refine ⟨c :: W, ?_, ?_⟩
          · rw [hW]
            rfl
          · intro d hd
            rcases List.mem_cons.mp hd with rfl | hd
            · right
              refine hαch d ?_
              refine List.mem_of_mem_drop (n := p) ?_
              rw [hcc]
              simp
            · exact hWch d hd
        | some (m, rest) =>
          simp only []
          have hcross := hNoCross p hplt m rest hm
          obtain ⟨t, htmem, htne, htlen, hmeq, hresteq, hlower⟩ :=
            firstMatch_spec terms _ m rest hm
          have hmlen : m.length = t.length := by
            rw [hmeq]
            simp only [List.length_take]
            omega
          have hmne : m ≠ [] := firstMatch_ne_nil terms hm
          have hmpos : 1 ≤ m.length := List.length_pos.mpr hmne
          have hrestform : rest = (α ++ (e ++ α)).drop (p + m.length) := by
            rw [hresteq, ← hmlen, List.drop_drop]
          have hlenr : ((α ++ (e ++ α)).drop (p + m.length)).length ≤ g := by
            simp only [List.length_drop] at hfuel ⊢
            omega
          rcases ih (p + m.length) (by omega) (by omega) g hlenr with ⟨W, hW, hWch⟩
          refine ⟨' ' :: (m ++ ' ' :: W), ?_, ?_⟩
          · rw [hrestform, hW]
            simp
          · intro d hd
            rcases List.mem_cons.mp hd with rfl | hd
            · left
              rfl
            · rcases List.mem_append.mp hd with hd | hd
              · right
                refine hαch d ?_
                have hmsub : m = (α.drop p).take t.length := by
                  rw [hmeq, hdropform]
                  exact List.take_append_of_le_length (by
                    simp only [List.length_drop]
                    omega)
                rw [hmsub] at hd
                exact List.mem_of_mem_drop (List.mem_of_mem_take hd)
              · rcases List.mem_cons.mp hd with rfl | hd
                · left
                  rfl
                · exact hWch d hd

theorem map_flatten_around {f : Str → List Str} (e : Str) (hfe : f e = [e])
    (L1 L2 : List Str) :
    ((L1 ++ e :: L2).map f).flatten = (L1.map f).flatten ++ e :: (L2.map f).flatten := by
  rw [List.map_append, List.flatten_append, List.map_cons, List.flatten_cons, hfe]
  rfl

theorem heurPiece_exception (terms sufNums : List Str) (kn : Bool) (e : Str)
    (hene : e ≠ []) (hel : lowerStr e = e) (he : e ∈ terms) :
    heurPiece terms sufNums kn e = [e] := by
  match e, hene, hel, he with
  | c :: cs, _, hel, he =>
    rw [heurPiece, if_pos (Or.inl (by rw [hel]; exact he))]

/-- C8: an identifier of the form `alpha ++ e ++ alpha` — `e` a common
term with numbers occurring verbatim, `alpha` a non-empty string of ASCII
letters, with the alternation matching `e` at its position and no match
from inside `alpha` reaching past it — splits with `e` as a single
contiguous token, because the elementary stage isolates `e` between
spaces and both scored stages treat `e` as recognized. -/
theorem claim_C8_exception_preservation (r : Ronin) (α e : Str) (kn : Bool)
    (hαne : α ≠ []) (hαch : ∀ c ∈ α, c.isAlpha = true)
    (hene : e ≠ []) (hech : ∀ c ∈ e, c.isLower = true ∨ c.isDigit = true)
    (he : e ∈ r.common_terms_with_numbers)
    (hE : ∀ u ∈ r.common_terms_with_numbers, ∃ c ∈ u, c.isDigit = true)
    (hFirst : firstMatch r.common_terms_with_numbers (e ++ α) = some (e, α))
    (hNoCross : ∀ p < α.length, ∀ m rest,
      firstMatch r.common_terms_with_numbers ((α ++ (e ++ α)).drop p) =
        some (m, rest) → p + m.length ≤ α.length) :
    ∃ L R, r.split (α ++ (e ++ α)) kn = L ++ e :: R := by
  have hel : lowerStr e = e := lowerStr_lower_digit hech
  have hrec : r.recognized e = true := by
    rw [Ronin.recognized, hel, Ronin.special_case]
    simp [he]
  have heNoUpper : ∀ c ∈ e, c.isUpper = false := by
    intro c hc
    rcases hech c hc with hl | hd
    · exact isLower_not_upper hl
    · exact isDigit_not_upper hd
  have heNoWs : ∀ c ∈ e, c.isWhitespace = false := by
    intro c hc
    rcases hech c hc with hl | hd
    · exact isLower_not_ws hl
    · exact isDigit_not_ws hd
  have hdelim : ∀ c ∈ α ++ (e ++ α), isDelim c = false := by
    intro c hc
    rcases List.mem_append.mp hc with hc | hc
    · exact isAlpha_not_delim (hαch c hc)
    · rcases List.mem_append.mp hc with hc | hc
      · rcases hech c hc with hl | hd
        · exact isLower_not_delim hl
        · exact isDigit_not_delim hd
      · exact isAlpha_not_delim (hαch c hc)
  obtain ⟨W, hW, hWch⟩ := protect_reach r.common_terms_with_numbers hE α e hαch
    hene hFirst hNoCross α.length 0 (by omega) (by omega)
    ((α ++ (e ++ α)).length) (by simp)
  rw [List.drop_zero] at hW
  have hprelim : camelSub (protectExceptions r.common_terms_with_numbers
      (translateDelims (α ++ (e ++ α)))) =
      camelSub W ++ ' ' :: (e ++ ' ' :: camelSub α) := by
    rw [translateDelims_no_delim _ hdelim, protectExceptions, hW]
    rw [camelSub_append_space W (e ++ ' ' :: α)]
    rw [camelSub_append_space e α]
    rw [camelSub_no_upper e heNoUpper]
  have hpieces : splitWs (camelSub W ++ ' ' :: (e ++ ' ' :: camelSub α)) =
      splitWs (camelSub W) ++ e :: splitWs (camelSub α) := by
    rw [splitWs_append_space (camelSub W) (e ++ ' ' :: camelSub α)]
    rw [splitWs_append_space e (camelSub α)]
    rw [splitWs_no_ws e hene heNoWs]
    rfl
  have hheur : heuristic_split r.common_terms_with_numbers r.common_suffix_numbers
      (α ++ (e ++ α)) kn =
      ((splitWs (camelSub W)).map (heurPiece r.common_terms_with_numbers
        r.common_suffix_numbers kn)).flatten ++
      e :: ((splitWs (camelSub α)).map (heurPiece r.common_terms_with_numbers
        r.common_suffix_numbers kn)).flatten := by
    rw [heuristic_split, hprelim, hpieces]
    exact map_flatten_around e
      (heurPiece_exception _ _ kn e hene hel he) _ _
  rw [Ronin.split, hheur]
  rw [map_flatten_around e (by rw [if_pos hrec]) _ _]
  rw [map_flatten_around e (by rw [same_case_split_eq, if_pos hrec]) _ _]
  exact ⟨_, _, rfl⟩

theorem claim_C8_witness :
    ∃ L R, testR.split (['q'] ++ (['u', 't', 'f', '8'] ++ ['q'])) true =
      L ++ ['u', 't', 'f', '8'] :: R :=
  claim_C8_exception_preservation testR ['q'] ['u', 't', 'f', '8'] true
    (by decide) (by decide) (by decide) (by decide) (by decide) (by decide)
    (by decide)
    (by
      intro p hp m rest hm
      have hp1 : p < 1 := by simpa using hp
      have hp0 : p = 0 := by omega
      subst hp0
      have hnone : firstMatch testR.common_terms_with_numbers
          ((['q'] ++ (['u', 't', 'f', '8'] ++ ['q'])).drop 0) = none := by decide
      rw [hnone] at hm
      cases hm)
